import Mathlib

set_option autoImplicit false
set_option maxHeartbeats 1000000
set_option maxRecDepth 40000

/-!
Shallow embedding of the TTS backend core (text chunker, timing normalizer,
retry wrapper, job manager, error sanitizer) and proofs of the specified
properties.  Strings are modelled as `List Char` (Python `str` is a sequence
of code points); Python `int` is modelled as `Int` (or `Nat` where the value
is an index or a length).
-/

/-- Python whitespace predicate (`str.strip`, regex `\s`), ASCII range.
Matches space, tab, newline, carriage return, vertical tab and form feed. -/
def pws (c : Char) : Bool :=
  c = ' ' || c = '\t' || c = '\n' || c = '\r' || c = '\x0b' || c = '\x0c'

/-- Python slice `text[a:b]` for `0 ≤ a ≤ b` (out-of-range indices clamp). -/
def pySlice (l : List Char) (a b : Nat) : List Char := (l.drop a).take (b - a)

/-- `TextChunk` from `src/backend/src/processing/chunker.py`. -/
structure TextChunk where
  text : List Char
  start_char : Nat
  end_char : Nat
  chunk_index : Nat
  total_chunks : Nat
  deriving DecidableEq

/-- `WordTiming` from `src/backend/src/api/schemas.py` (all `int` fields). -/
structure WordTiming where
  word : List Char
  start_ms : Int
  end_ms : Int
  start_char : Int
  end_char : Int
  deriving DecidableEq

/-- `SentenceTiming` from `src/backend/src/api/schemas.py`. -/
structure SentenceTiming where
  sentence : List Char
  start_ms : Int
  end_ms : Int
  start_char : Int
  end_char : Int
  deriving DecidableEq

/-- Python `zip(a, b, c)`: truncates to the shortest input. -/
def zip3 {α β γ : Type} : List α → List β → List γ → List (α × β × γ)
  | a :: as, b :: bs, c :: cs => (a, b, c) :: zip3 as bs cs
  | _, _, _ => []

/-- Loop body of `TimingNormalizer.merge_word_timings`: walks the zipped
`(chunk, timings, duration)` triples with the running `cumulative_time_ms`;
`n` is `len(chunks)` and `i` the enumeration index, as in the source
(`if i < len(chunks) - 1: cumulative_time_ms += silence_between_ms`). -/
def mergeWordGo (n : Nat) (silence : Int) :
    Nat → Int → List (TextChunk × List WordTiming × Int) → List WordTiming
  | _, _, [] => []
  | i, cum, (c, ts, dur) :: rest =>
    (ts.map fun wt =>
      { word := wt.word
        start_ms := wt.start_ms + cum
        end_ms := wt.end_ms + cum
        start_char := wt.start_char + (c.start_char : Int)
        end_char := wt.end_char + (c.start_char : Int) })
    ++ mergeWordGo n silence (i + 1)
        (cum + dur + (if i < n - 1 then silence else 0)) rest

/-- `TimingNormalizer.merge_word_timings` from
`src/backend/src/processing/timing.py`. -/
def TimingNormalizer.merge_word_timings (chunks : List TextChunk)
    (chunk_timings : List (List WordTiming)) (chunk_durations_ms : List Int)
    (silence_between_ms : Int) : List WordTiming :=
  mergeWordGo chunks.length silence_between_ms 0 0
    (zip3 chunks chunk_timings chunk_durations_ms)

/-- Loop body of `TimingNormalizer.merge_sentence_timings` (same logic as
`mergeWordGo` but for sentence-level data, as in the source). -/
def mergeSentGo (n : Nat) (silence : Int) :
    Nat → Int → List (TextChunk × List SentenceTiming × Int) → List SentenceTiming
  | _, _, [] => []
  | i, cum, (c, ts, dur) :: rest =>
    (ts.map fun st =>
      { sentence := st.sentence
        start_ms := st.start_ms + cum
        end_ms := st.end_ms + cum
        start_char := st.start_char + (c.start_char : Int)
        end_char := st.end_char + (c.start_char : Int) })
    ++ mergeSentGo n silence (i + 1)
        (cum + dur + (if i < n - 1 then silence else 0)) rest

/-- `TimingNormalizer.merge_sentence_timings` from
`src/backend/src/processing/timing.py`. -/
def TimingNormalizer.merge_sentence_timings (chunks : List TextChunk)
    (chunk_timings : List (List SentenceTiming)) (chunk_durations_ms : List Int)
    (silence_between_ms : Int) : List SentenceTiming :=
  mergeSentGo chunks.length silence_between_ms 0 0
    (zip3 chunks chunk_timings chunk_durations_ms)

/-- The shift the specification prescribes for a chunk-`i` word-timing entry:
times move by `(sum of chunk_durations_ms[0..i-1]) + i * silence_between_ms`,
characters by `chunks[i].start_char`.  (Stated from the spec; compared with
the source function in the theorem.) -/
def mergeWordSpecShift (chunks : List TextChunk) (durs : List Int)
    (silence : Int) (i : Nat) (wt : WordTiming) : WordTiming :=
  { word := wt.word
    start_ms := wt.start_ms + (durs.take i).sum + (i : Int) * silence
    end_ms := wt.end_ms + (durs.take i).sum + (i : Int) * silence
    start_char := wt.start_char + ((chunks.getD i ⟨[], 0, 0, 0, 0⟩).start_char : Int)
    end_char := wt.end_char + ((chunks.getD i ⟨[], 0, 0, 0, 0⟩).start_char : Int) }

/-- Spec-side shift for sentence entries (identical axis logic). -/
def mergeSentSpecShift (chunks : List TextChunk) (durs : List Int)
    (silence : Int) (i : Nat) (st : SentenceTiming) : SentenceTiming :=
  { sentence := st.sentence
    start_ms := st.start_ms + (durs.take i).sum + (i : Int) * silence
    end_ms := st.end_ms + (durs.take i).sum + (i : Int) * silence
    start_char := st.start_char + ((chunks.getD i ⟨[], 0, 0, 0, 0⟩).start_char : Int)
    end_char := st.end_char + ((chunks.getD i ⟨[], 0, 0, 0, 0⟩).start_char : Int) }

lemma mergeWordGo_spec (sil : Int) :
    ∀ (cs : List TextChunk) (ts : List (List WordTiming)) (ds : List Int)
      (n i : Nat) (cum : Int),
      cs.length = ts.length → cs.length = ds.length → i + cs.length = n →
      mergeWordGo n sil i cum (zip3 cs ts ds) =
        ((List.range cs.length).map fun k =>
          (ts.getD k []).map fun wt =>
            { word := wt.word
              start_ms := wt.start_ms + cum + (ds.take k).sum + (k : Int) * sil
              end_ms := wt.end_ms + cum + (ds.take k).sum + (k : Int) * sil
              start_char := wt.start_char + ((cs.getD k ⟨[], 0, 0, 0, 0⟩).start_char : Int)
              end_char := wt.end_char + ((cs.getD k ⟨[], 0, 0, 0, 0⟩).start_char : Int) }).flatten
  | [], ts, ds, n, i, cum, h1, h2, h3 => by
    simp [zip3, mergeWordGo]
  | c :: cs, [], ds, n, i, cum, h1, h2, h3 => by simp at h1
  | c :: cs, t :: ts, [], n, i, cum, h1, h2, h3 => by simp at h2
  | c :: cs, t :: ts, d :: ds, n, i, cum, h1, h2, h3 => by
    simp only [List.length_cons] at h1 h2 h3
    have h1' : cs.length = ts.length := by omega
    have h2' : cs.length = ds.length := by omega
    rcases List.eq_nil_or_concat cs with hcs | hne
    · subst hcs
      have hts : ts = [] := by simpa using h1'.symm
      have hds : ds = [] := by simpa using h2'.symm
      subst hts; subst hds
      simp [zip3, mergeWordGo, List.range_succ]
    · -- cs nonempty, so i < n - 1 and the silence gap is added
      have hlen : 0 < cs.length := by
        obtain ⟨l, a, rfl⟩ := hne; simp
      have hgap : i < n - 1 := by omega
      have ih := mergeWordGo_spec sil cs ts ds n (i + 1) (cum + d + sil) h1' h2'
        (by omega)
      show (t.map _) ++ mergeWordGo n sil (i + 1)
          (cum + d + (if i < n - 1 then sil else 0)) (zip3 cs ts ds) = _
      rw [if_pos hgap, ih,
        show (c :: cs).length = cs.length + 1 from rfl, List.range_succ_eq_map,
        List.map_cons, List.flatten_cons, List.map_map]
      congr 1
      · apply List.map_congr_left
        intro wt _
        simp
      · apply congrArg
        apply List.map_congr_left
        intro k _
        simp only [Function.comp_apply, List.getD_cons_succ]
        apply List.map_congr_left
        intro wt _
        simp only [List.take_succ_cons, List.sum_cons, WordTiming.mk.injEq]
        push_cast
        refine ⟨trivial, by ring, by ring, trivial, trivial⟩

lemma mergeSentGo_spec (sil : Int) :
    ∀ (cs : List TextChunk) (ts : List (List SentenceTiming)) (ds : List Int)
      (n i : Nat) (cum : Int),
      cs.length = ts.length → cs.length = ds.length → i + cs.length = n →
      mergeSentGo n sil i cum (zip3 cs ts ds) =
        ((List.range cs.length).map fun k =>
          (ts.getD k []).map fun st =>
            { sentence := st.sentence
              start_ms := st.start_ms + cum + (ds.take k).sum + (k : Int) * sil
              end_ms := st.end_ms + cum + (ds.take k).sum + (k : Int) * sil
              start_char := st.start_char + ((cs.getD k ⟨[], 0, 0, 0, 0⟩).start_char : Int)
              end_char := st.end_char + ((cs.getD k ⟨[], 0, 0, 0, 0⟩).start_char : Int) }).flatten
  | [], ts, ds, n, i, cum, h1, h2, h3 => by
    simp [zip3, mergeSentGo]
  | c :: cs, [], ds, n, i, cum, h1, h2, h3 => by simp at h1
  | c :: cs, t :: ts, [], n, i, cum, h1, h2, h3 => by simp at h2
  | c :: cs, t :: ts, d :: ds, n, i, cum, h1, h2, h3 => by
    simp only [List.length_cons] at h1 h2 h3
    have h1' : cs.length = ts.length := by omega
    have h2' : cs.length = ds.length := by omega
    rcases List.eq_nil_or_concat cs with hcs | hne
    · subst hcs
      have hts : ts = [] := by simpa using h1'.symm
      have hds : ds = [] := by simpa using h2'.symm
      subst hts; subst hds
      simp [zip3, mergeSentGo, List.range_succ]
    · have hlen : 0 < cs.length := by
        obtain ⟨l, a, rfl⟩ := hne; simp
      have hgap : i < n - 1 := by omega
      have ih := mergeSentGo_spec sil cs ts ds n (i + 1) (cum + d + sil) h1' h2'
        (by omega)
      show (t.map _) ++ mergeSentGo n sil (i + 1)
          (cum + d + (if i < n - 1 then sil else 0)) (zip3 cs ts ds) = _
      rw [if_pos hgap, ih,
        show (c :: cs).length = cs.length + 1 from rfl, List.range_succ_eq_map,
        List.map_cons, List.flatten_cons, List.map_map]
      congr 1
      · apply List.map_congr_left
        intro st _
        simp
      · apply congrArg
        apply List.map_congr_left
        intro k _
        simp only [Function.comp_apply, List.getD_cons_succ]
        apply List.map_congr_left
        intro st _
        simp only [List.take_succ_cons, List.sum_cons, SentenceTiming.mk.injEq]
        push_cast
        refine ⟨trivial, by ring, by ring, trivial, trivial⟩

/-- **C1.** For equal-length inputs, `merge_word_timings` (and identically
`merge_sentence_timings`) shifts each chunk-`i` entry by
`sum(chunk_durations_ms[0..i-1]) + i * silence_between_ms` on the time axis
and by `chunks[i].start_char` on the character axis; in particular with
durations `[400, 500, 400]` and silence `100`, chunk-2 entries shift by
`500` ms and chunk-3 entries by `1100` ms. -/
theorem merge_timings_shift (chunks : List TextChunk)
    (wts : List (List WordTiming)) (sts : List (List SentenceTiming))
    (durs : List Int) (sil : Int)
    (hw : chunks.length = wts.length) (hs : chunks.length = sts.length)
    (hd : chunks.length = durs.length) :
    TimingNormalizer.merge_word_timings chunks wts durs sil =
      ((List.range chunks.length).map fun i =>
        (wts.getD i []).map (mergeWordSpecShift chunks durs sil i)).flatten
    ∧ TimingNormalizer.merge_sentence_timings chunks sts durs sil =
      ((List.range chunks.length).map fun i =>
        (sts.getD i []).map (mergeSentSpecShift chunks durs sil i)).flatten
    ∧ (([400, 500, 400] : List Int).take 1).sum + (1 : Int) * 100 = 500
    ∧ (([400, 500, 400] : List Int).take 2).sum + (2 : Int) * 100 = 1100 := by
  refine ⟨?_, ?_, by decide, by decide⟩
  · have h := mergeWordGo_spec sil chunks wts durs chunks.length 0 0 hw hd (by omega)
    rw [TimingNormalizer.merge_word_timings, h]
    apply congrArg
    apply List.map_congr_left
    intro k _
    apply List.map_congr_left
    intro wt _
    simp [mergeWordSpecShift]
  · have h := mergeSentGo_spec sil chunks sts durs chunks.length 0 0 hs hd (by omega)
    rw [TimingNormalizer.merge_sentence_timings, h]
    apply congrArg
    apply List.map_congr_left
    intro k _
    apply List.map_congr_left
    intro st _
    simp [mergeSentSpecShift]

/-- Witness for `merge_timings_shift` at the spec's concrete scenario:
chunk starts `[0, 8, 19]`, durations `[400, 500, 400]`, silence `100`. -/
theorem merge_timings_shift_witness :
    (([⟨['a'], 0, 1, 0, 3⟩, ⟨['b'], 8, 9, 1, 3⟩, ⟨['c'], 19, 20, 2, 3⟩] :
        List TextChunk).length =
      ([[⟨['a'], 0, 400, 0, 1⟩], [⟨['b'], 0, 500, 0, 1⟩], [⟨['c'], 0, 400, 0, 1⟩]] :
        List (List WordTiming)).length)
    ∧ TimingNormalizer.merge_word_timings
        [⟨['a'], 0, 1, 0, 3⟩, ⟨['b'], 8, 9, 1, 3⟩, ⟨['c'], 19, 20, 2, 3⟩]
        [[⟨['a'], 0, 400, 0, 1⟩], [⟨['b'], 0, 500, 0, 1⟩], [⟨['c'], 0, 400, 0, 1⟩]]
        [400, 500, 400] 100 =
      ((List.range 3).map fun i =>
        (([[⟨['a'], 0, 400, 0, 1⟩], [⟨['b'], 0, 500, 0, 1⟩], [⟨['c'], 0, 400, 0, 1⟩]] :
            List (List WordTiming)).getD i []).map
          (mergeWordSpecShift
            [⟨['a'], 0, 1, 0, 3⟩, ⟨['b'], 8, 9, 1, 3⟩, ⟨['c'], 19, 20, 2, 3⟩]
            [400, 500, 400] 100 i)).flatten := by
  refine ⟨rfl, ?_⟩
  exact (merge_timings_shift
    [⟨['a'], 0, 1, 0, 3⟩, ⟨['b'], 8, 9, 1, 3⟩, ⟨['c'], 19, 20, 2, 3⟩]
    [[⟨['a'], 0, 400, 0, 1⟩], [⟨['b'], 0, 500, 0, 1⟩], [⟨['c'], 0, 400, 0, 1⟩]]
    [[], [], []] [400, 500, 400] 100 rfl rfl rfl).1

/-! ## Retry wrapper (`synthesize_with_retry`, src/backend/src/jobs/manager.py) -/

/-- Outcome of a single `provider.synthesize` call: success, a
`ProviderRateLimitError`, or any other exception. -/
inductive SynthOutcome (α ε : Type) where
  | ok : α → SynthOutcome α ε
  | rateLimit : ε → SynthOutcome α ε
  | fail : ε → SynthOutcome α ε
  deriving DecidableEq

/-- `MAX_RETRIES = 3` from `src/backend/src/jobs/manager.py`. -/
def MAX_RETRIES : Nat := 3

/-- The loop of `synthesize_with_retry`: `beh j` is the outcome of the
`j`-th `synthesize` call; `remaining = MAX_RETRIES - attempt`.  Returns the
result, the list of back-off sleeps (`1.0 * 2 ** attempt` seconds, as exact
rationals) and the number of `synthesize` calls made. -/
def synthRetryGo {α ε : Type} (beh : Nat → SynthOutcome α ε) :
    Nat → Nat → Except ε α × List ℚ × Nat
  | attempt, remaining =>
    match beh attempt, remaining with
    | .ok r, _ => (.ok r, [], 1)
    | .fail e, _ => (.error e, [], 1)
    | .rateLimit e, 0 => (.error e, [], 1)
    | .rateLimit _, r + 1 =>
      let rest := synthRetryGo beh (attempt + 1) r
      (rest.1, (1 : ℚ) * 2 ^ attempt :: rest.2.1, rest.2.2 + 1)
  termination_by attempt remaining => remaining

/-- `synthesize_with_retry` from `src/backend/src/jobs/manager.py`,
parameterized by the provider behaviour `beh`. -/
def synthesize_with_retry {α ε : Type} (beh : Nat → SynthOutcome α ε) :
    Except ε α × List ℚ × Nat :=
  synthRetryGo beh 0 MAX_RETRIES

/-- **C5.** The retry wrapper retries only on rate-limit errors with back-off
`1.0 * 2 ^ attempt`: (a) `k ≤ 3` rate-limit errors then success returns the
success after exactly `k` sleeps (`k + 1` calls); (b) four consecutive
rate-limit errors re-raise the last one after 3 sleeps and 4 calls; (c) any
other error propagates immediately with `synthesize` called exactly once. -/
theorem synthesize_with_retry_spec {α ε : Type} (beh : Nat → SynthOutcome α ε)
    (err : Nat → ε) :
    (∀ (k : Nat) (r : α), k ≤ 3 →
      (∀ j, j < k → beh j = .rateLimit (err j)) → beh k = .ok r →
      synthesize_with_retry beh =
        (.ok r, (List.range k).map (fun j => (1 : ℚ) * 2 ^ j), k + 1))
    ∧ ((∀ j, j ≤ 3 → beh j = .rateLimit (err j)) →
      synthesize_with_retry beh =
        (.error (err 3), (List.range 3).map (fun j => (1 : ℚ) * 2 ^ j), 4))
    ∧ (∀ e, beh 0 = .fail e →
      synthesize_with_retry beh = (.error e, [], 1)) := by
  refine ⟨?_, ?_, ?_⟩
  · intro k r hk hrl hok
    interval_cases k
    · simp [synthesize_with_retry, MAX_RETRIES, synthRetryGo, hok]
    · have h0 := hrl 0 (by omega)
      simp [synthesize_with_retry, MAX_RETRIES, synthRetryGo, h0, hok,
        List.range_succ]
    · have h0 := hrl 0 (by omega)
      have h1 := hrl 1 (by omega)
      simp [synthesize_with_retry, MAX_RETRIES, synthRetryGo, h0, h1, hok,
        List.range_succ]
    · have h0 := hrl 0 (by omega)
      have h1 := hrl 1 (by omega)
      have h2 := hrl 2 (by omega)
      simp [synthesize_with_retry, MAX_RETRIES, synthRetryGo, h0, h1, h2, hok,
        List.range_succ]
  · intro hrl
    have h0 := hrl 0 (by omega)
    have h1 := hrl 1 (by omega)
    have h2 := hrl 2 (by omega)
    have h3 := hrl 3 (by omega)
    simp [synthesize_with_retry, MAX_RETRIES, synthRetryGo, h0, h1, h2, h3,
      List.range_succ]
  · intro e he
    simp [synthesize_with_retry, MAX_RETRIES, synthRetryGo, he]

/-- Witness for `synthesize_with_retry_spec`: two rate-limit errors then
success returns the success value after sleeps of 1.0 s and 2.0 s. -/
theorem synthesize_with_retry_spec_witness :
    synthesize_with_retry
        (fun j => if j < 2 then SynthOutcome.rateLimit (j : Nat) else .ok (7 : Nat)) =
      (.ok 7, [(1 : ℚ) * 2 ^ 0, (1 : ℚ) * 2 ^ 1], 3) := by
  have h := (synthesize_with_retry_spec
    (fun j => if j < 2 then SynthOutcome.rateLimit (j : Nat) else .ok (7 : Nat))
    (fun j => j)).1 2 7 (by omega)
    (by intro j hj; simp [hj]) (by simp)
  simpa [List.range_succ] using h

/-! ## Sentence splitting and estimation (src/backend/src/processing/timing.py) -/

/-- Sentence-ending punctuation of the regex `(?<=[.!?])`. -/
def isSentEnd (c : Char) : Bool := c = '.' || c = '!' || c = '?'

/-- `re.split(r"(?<=[.!?])\s+", text)`: a delimiter is a maximal whitespace
run whose preceding character is `.`, `!` or `?`.  `prev` carries the
look-behind character; fuel is the length of the unscanned text (each step
consumes at least one character, so `fuel = text.length` never runs out). -/
def resplitGo : Nat → Char → List Char → List Char → List (List Char)
  | 0, _, l, cur => [cur.reverse ++ l]
  | _ + 1, _, [], cur => [cur.reverse]
  | fuel + 1, prev, c :: cs, cur =>
    if pws c && isSentEnd prev then
      cur.reverse :: resplitGo fuel ' ' (cs.dropWhile pws) []
    else
      resplitGo fuel c cs (c :: cur)

/-- `re.split(r"(?<=[.!?])\s+", text)`.  The initial `prev` is an arbitrary
non-punctuation character: a look-behind cannot match at position 0. -/
def resplit (text : List Char) : List (List Char) :=
  resplitGo text.length 'a' text []

/-- Python `text.index(sub, start)` scan (absolute index of the first
occurrence of `sub` at or after `start`; all call sites guarantee
occurrence). -/
def indexFromGo (sub : List Char) : Nat → List Char → Nat
  | i, [] => i
  | i, c :: cs => if sub.isPrefixOf (c :: cs) then i else indexFromGo sub (i + 1) cs

/-- Python `text.index(sub, start)`. -/
def pyIndexFrom (text sub : List Char) (start : Nat) : Nat :=
  indexFromGo sub start (text.drop start)

/-- The offset loop of `split_into_sentences`: skips empty parts, locates
each part with `text.index(part, current_offset)` and threads the offset. -/
def splitSentencesGo (text : List Char) :
    List (List Char) → Nat → List (List Char × Nat × Nat)
  | [], _ => []
  | part :: rest, currentOffset =>
    if part.isEmpty then splitSentencesGo text rest currentOffset
    else
      let start := pyIndexFrom text part currentOffset
      let stop := start + part.length
      (part, start, stop) :: splitSentencesGo text rest stop

/-- `split_into_sentences` from `src/backend/src/processing/timing.py`:
returns `(sentence_text, start_char, end_char)` triples. -/
def split_into_sentences (text : List Char) : List (List Char × Nat × Nat) :=
  splitSentencesGo text (resplit text) 0

/-- `⌊log₂ n⌋` with explicit fuel (`fuel = n` always suffices). -/
def log2go : Nat → Nat → Nat
  | 0, _ => 0
  | fuel + 1, n => if n < 2 then 0 else log2go fuel (n / 2) + 1

/-- `⌊log₂ n⌋` for `n ≥ 1` (and 0 at 0). -/
def nlog2 (n : Nat) : Nat := log2go n n

/-- Whether `2 ^ j ≤ a / b` as rationals, by integer arithmetic. -/
def le2pow (j : Int) (a b : Nat) : Bool :=
  if 0 ≤ j then decide (b * 2 ^ j.toNat ≤ a) else decide (b ≤ a * 2 ^ (-j).toNat)

/-- `⌊log₂ (a / b)⌋` for `a, b > 0`: the bit-length estimate is off by at
most one, so one comparison up and one down settle it. -/
def qlog2 (a b : Nat) : Int :=
  let k : Int := (nlog2 a : Int) - (nlog2 b : Int)
  if le2pow (k + 1) a b then k + 1
  else if le2pow k a b then k
  else k - 1

/-- Round the rational `a / b` to the nearest IEEE-754 binary64 value
(round to nearest, ties to even), returned exactly as a mantissa/exponent
pair `(m, e)` with value `m * 2 ^ e` and `2^52 ≤ m < 2^53` (or `m = 2^53`
on a rounding carry, still exact).  Subnormals and overflow are not
modelled: every value reaching this function (a sentence-length fraction
in `(0, 1]`, a millisecond count, or their product) is far inside the
normal range.  `b = 0` is unreachable (Python would raise
`ZeroDivisionError`; the caller guards `total_chars == 0`). -/
def roundQ (a b : Nat) : Nat × Int :=
  if a = 0 then (0, 0)
  else
    let e : Int := qlog2 a b - 52
    let A : Nat := if 0 ≤ e then a else a * 2 ^ (-e).toNat
    let B : Nat := if 0 ≤ e then b * 2 ^ e.toNat else b
    let fl := A / B
    let rem := A % B
    let m : Nat :=
      if 2 * rem < B then fl
      else if B < 2 * rem then fl + 1
      else if fl % 2 = 0 then fl else fl + 1
    (m, e)

/-- Round the dyadic rational `M * 2 ^ E` (an exact product of two
binary64 values) back to the nearest binary64 value. -/
def roundDyadic (M : Nat) (E : Int) : Nat × Int :=
  if 0 ≤ E then roundQ (M * 2 ^ E.toNat) 1 else roundQ M (2 ^ (-E).toNat)

/-- The source's `int(char_fraction * total_duration_ms)` where
`char_fraction = len(sentence_text) / total_chars`: binary64 division
`len / total`, conversion of the integer `D` to binary64, correctly
rounded binary64 multiplication, then `int()` truncation (= floor, the
value being non-negative).  This can fall below the exact truncated share
`len * D / total`: e.g. `floatShare 7 10 90 = 62` while `7 * 90 / 10 = 63`,
because the double nearest `7 / 10` is slightly below `0.7`. -/
def floatShare (len total D : Nat) : Int :=
  let f := roundQ len total
  let d := roundQ D 1
  let p := roundDyadic (f.1 * d.1) (f.2 + d.2)
  (((if 0 ≤ p.2 then p.1 * 2 ^ p.2.toNat else p.1 / 2 ^ (-p.2).toNat) : Nat) : Int)

/-- The emission loop of `estimate_sentence_timings`.  The source computes
`duration = int(char_fraction * total_duration_ms)` with Python floats,
modelled exactly by `floatShare`.  The last sentence's end is forced to
`total_duration_ms` (`rest.isEmpty` iff `i == len(sentences) - 1`). -/
def estimateGo (total D : Nat) :
    List (List Char × Nat × Nat) → Int → List SentenceTiming
  | [], _ => []
  | (s, a, b) :: rest, cur =>
    let dur : Int := floatShare s.length total D
    let endT : Int := if rest.isEmpty then (D : Int) else cur + dur
    ⟨s, cur, endT, (a : Int), (b : Int)⟩ :: estimateGo total D rest endT

/-- `TimingNormalizer.estimate_sentence_timings` from
`src/backend/src/processing/timing.py`. -/
def TimingNormalizer.estimate_sentence_timings (text : List Char)
    (total_duration_ms : Nat) : List SentenceTiming :=
  let sentences := split_into_sentences text
  if sentences.isEmpty then []
  else
    let total_chars := (sentences.map fun s => s.1.length).sum
    if total_chars = 0 then []
    else estimateGo total_chars total_duration_ms sentences 0

lemma splitSentencesGo_ne_nil (text : List Char) :
    ∀ (parts : List (List Char)) (off : Nat),
      ∀ p ∈ splitSentencesGo text parts off, p.1 ≠ []
  | [], _ => by simp [splitSentencesGo]
  | part :: rest, off => by
    intro p hp
    by_cases he : part.isEmpty
    · simp only [splitSentencesGo, if_pos he] at hp
      exact splitSentencesGo_ne_nil text rest off p hp
    · simp only [splitSentencesGo, if_neg he, List.mem_cons] at hp
      rcases hp with hp | hp
      · subst hp
        simpa [List.isEmpty_iff] using he
      · exact splitSentencesGo_ne_nil text rest _ p hp

lemma estimateGo_chain (total D : Nat) :
    ∀ (ss : List (List Char × Nat × Nat)) (cur : Int), ss ≠ [] →
      (estimateGo total D ss cur).length = ss.length
      ∧ ((estimateGo total D ss cur).getD 0 ⟨[], 0, 0, 0, 0⟩).start_ms = cur
      ∧ (∀ i, i + 1 < ss.length →
          ((estimateGo total D ss cur).getD (i + 1) ⟨[], 0, 0, 0, 0⟩).start_ms =
            ((estimateGo total D ss cur).getD i ⟨[], 0, 0, 0, 0⟩).end_ms)
      ∧ ((estimateGo total D ss cur).getD (ss.length - 1) ⟨[], 0, 0, 0, 0⟩).end_ms = D
      ∧ (∀ i, i + 1 < ss.length →
          ((estimateGo total D ss cur).getD i ⟨[], 0, 0, 0, 0⟩).end_ms =
            ((estimateGo total D ss cur).getD i ⟨[], 0, 0, 0, 0⟩).start_ms +
              floatShare (ss.getD i ([], 0, 0)).1.length total D)
  | [], cur, h => absurd rfl h
  | [(s, a, b)], cur, _ => by
    refine ⟨rfl, rfl, ?_, ?_, ?_⟩
    · intro i hi; simp at hi
    · simp [estimateGo]
    · intro i hi; simp at hi
  | (s, a, b) :: x :: rest, cur, _ => by
    have ih := estimateGo_chain total D (x :: rest)
      (cur + floatShare s.length total D) (by simp)
    obtain ⟨ihlen, ihstart, ihchain, ihend, ihdur⟩ := ih
    have hstep : estimateGo total D ((s, a, b) :: x :: rest) cur =
        ⟨s, cur, cur + floatShare s.length total D, (a : Int), (b : Int)⟩ ::
          estimateGo total D (x :: rest)
            (cur + floatShare s.length total D) := by
      simp [estimateGo]
    refine ⟨?_, ?_, ?_, ?_, ?_⟩
    · rw [hstep]; simp only [List.length_cons, ihlen]
    · rw [hstep]; rfl
    · intro i hi
      rw [hstep]
      match i with
      | 0 =>
        simpa using ihstart
      | j + 1 =>
        have hj : j + 1 < (x :: rest).length := by
          simpa [Nat.succ_lt_succ_iff] using hi
        simpa using ihchain j hj
    · rw [hstep]
      have : ((s, a, b) :: x :: rest).length - 1 = ((x :: rest).length - 1) + 1 := by
        simp
      rw [this]
      simpa using ihend
    · intro i hi
      rw [hstep]
      match i with
      | 0 => simp
      | j + 1 =>
        have hj : j + 1 < (x :: rest).length := by
          simpa [Nat.succ_lt_succ_iff] using hi
        simpa using ihdur j hj

/-- **C6** (amended).  For a text splitting into `n ≥ 1` sentences and any
duration `D`, `estimate_sentence_timings` returns `n` contiguous entries:
the first starts at 0, each entry starts where the previous one ends, the
last ends exactly at `D`, and each non-last entry's duration is
`int(char_fraction * total_duration_ms)` computed in binary64 floating
point (`floatShare`), which can fall one below the exact truncated share
`len_i * D / total_chars` (see `estimate_sentence_timings_cex`). -/
theorem estimate_sentence_timings_spec (text : List Char) (D : Nat)
    (hn : split_into_sentences text ≠ []) :
    (TimingNormalizer.estimate_sentence_timings text D).length =
      (split_into_sentences text).length
    ∧ ((TimingNormalizer.estimate_sentence_timings text D).getD 0
        ⟨[], 0, 0, 0, 0⟩).start_ms = 0
    ∧ (∀ i, i + 1 < (split_into_sentences text).length →
        ((TimingNormalizer.estimate_sentence_timings text D).getD (i + 1)
            ⟨[], 0, 0, 0, 0⟩).start_ms =
          ((TimingNormalizer.estimate_sentence_timings text D).getD i
            ⟨[], 0, 0, 0, 0⟩).end_ms)
    ∧ ((TimingNormalizer.estimate_sentence_timings text D).getD
        ((split_into_sentences text).length - 1) ⟨[], 0, 0, 0, 0⟩).end_ms = D
    ∧ (∀ i, i + 1 < (split_into_sentences text).length →
        ((TimingNormalizer.estimate_sentence_timings text D).getD i
            ⟨[], 0, 0, 0, 0⟩).end_ms =
          ((TimingNormalizer.estimate_sentence_timings text D).getD i
            ⟨[], 0, 0, 0, 0⟩).start_ms +
            floatShare ((split_into_sentences text).getD i ([], 0, 0)).1.length
              (((split_into_sentences text).map fun s => s.1.length).sum) D) := by
  have hne : ¬ (split_into_sentences text).isEmpty := by
    simpa [List.isEmpty_iff] using hn
  have htot : ((split_into_sentences text).map fun s => s.1.length).sum ≠ 0 := by
    intro h0
    obtain ⟨p, hp, hrest⟩ := List.exists_cons_of_ne_nil hn
    have hmem : p ∈ split_into_sentences text := by rw [hrest]; exact List.mem_cons_self _ _
    have hplen : p.1.length ∈ (split_into_sentences text).map fun s => s.1.length :=
      List.mem_map_of_mem _ hmem
    have := (List.sum_eq_zero_iff.mp h0) _ hplen
    exact splitSentencesGo_ne_nil text (resplit text) 0 p hmem (by
      simpa [List.length_eq_zero] using this)
  have hne' : (split_into_sentences text).isEmpty = false := by
    cases hE : (split_into_sentences text).isEmpty
    · rfl
    · exact absurd (List.isEmpty_iff.mp hE) hn
  have heq : TimingNormalizer.estimate_sentence_timings text D =
      estimateGo (((split_into_sentences text).map fun s => s.1.length).sum) D
        (split_into_sentences text) 0 := by
    simp [TimingNormalizer.estimate_sentence_timings, hne', htot]
  rw [heq]
  exact estimateGo_chain _ D (split_into_sentences text) 0 hn

/-- Witness for `estimate_sentence_timings_spec` at the spec's scenario:
`text = "A. B."`, duration 300 ms. -/
theorem estimate_sentence_timings_spec_witness :
    split_into_sentences "A. B.".toList ≠ []
    ∧ (TimingNormalizer.estimate_sentence_timings "A. B.".toList 300).length =
      (split_into_sentences "A. B.".toList).length := by
  refine ⟨by decide, ?_⟩
  exact (estimate_sentence_timings_spec "A. B.".toList 300 (by decide)).1

/-- **C6** counterexample to the claim as frozen: at `text = "Ab cde. Xy."`
(two sentences of lengths 7 and 3, so `total_chars = 10`) and `D = 90`,
the first (non-last) entry runs from 0 to `int((7 / 10) * 90) = 62` — the
binary64 value nearest `7 / 10` is slightly below `0.7` and the product
rounds to just under 63 — while the truncated proportional share is
`7 * 90 / 10 = 63`.  The non-last duration is therefore NOT the truncated
proportional share `len_i * D / total_chars`. -/
theorem estimate_sentence_timings_cex :
    (split_into_sentences "Ab cde. Xy.".toList).length = 2
    ∧ ((split_into_sentences "Ab cde. Xy.".toList).getD 0 ([], 0, 0)).1.length = 7
    ∧ (((split_into_sentences "Ab cde. Xy.".toList).map fun s => s.1.length).sum) = 10
    ∧ ((TimingNormalizer.estimate_sentence_timings "Ab cde. Xy.".toList 90).getD 0
        ⟨[], 0, 0, 0, 0⟩).start_ms = 0
    ∧ ((TimingNormalizer.estimate_sentence_timings "Ab cde. Xy.".toList 90).getD 0
        ⟨[], 0, 0, 0, 0⟩).end_ms = 62
    ∧ ((7 * 90) / 10 : Nat) = 63
    ∧ ¬ (((TimingNormalizer.estimate_sentence_timings "Ab cde. Xy.".toList 90).getD 0
          ⟨[], 0, 0, 0, 0⟩).end_ms =
        ((TimingNormalizer.estimate_sentence_timings "Ab cde. Xy.".toList 90).getD 0
          ⟨[], 0, 0, 0, 0⟩).start_ms +
          (((((split_into_sentences "Ab cde. Xy.".toList).getD 0 ([], 0, 0)).1.length * 90) /
            (((split_into_sentences "Ab cde. Xy.".toList).map fun s => s.1.length).sum) : Nat) :
              Int)) := by
  decide

/-! ## Text chunker (src/backend/src/processing/chunker.py) -/

/-- Python `str.lstrip()`. -/
def lstrip (l : List Char) : List Char := l.dropWhile pws

/-- Python `str.rstrip()`. -/
def rstrip (l : List Char) : List Char := (l.reverse.dropWhile pws).reverse

/-- Python `str.strip()`. -/
def strip (l : List Char) : List Char := rstrip (lstrip l)

/-- Scanner for Python `candidate.rfind(pat)`: `best` holds the latest match
index seen so far (`-1` when none). -/
def rfindGo (pat : List Char) : List Char → Nat → Int → Int
  | [], _, best => best
  | c :: cs, i, best =>
    rfindGo pat cs (i + 1) (if pat.isPrefixOf (c :: cs) then (i : Int) else best)

/-- Python `candidate.rfind(pat)`: highest occurrence index, `-1` if none. -/
def rfind (pat l : List Char) : Int := rfindGo pat l 0 (-1)

/-- The six sentence-boundary patterns of `_find_split_point`. -/
def sentencePatterns : List (List Char) :=
  [['.', ' '], ['!', ' '], ['?', ' '], ['.', '\n'], ['!', '\n'], ['?', '\n']]

/-- One step of the sentence-boundary fold of `_find_split_point`: if
`pos = rfind(pattern)` lands beyond `min_pos`, keep the largest
`pos + len(pattern)`. -/
def bestSentenceStep (candidate : List Char) (min_pos best : Int)
    (pat : List Char) : Int :=
  if min_pos < rfind pat candidate then
    (if best < rfind pat candidate + (pat.length : Int) then
      rfind pat candidate + (pat.length : Int)
    else best)
  else best

/-- The sentence-boundary fold of `_find_split_point` over the six
patterns, starting from `best_sentence_pos = -1`. -/
def bestSentence (candidate : List Char) (min_pos : Int) : Int :=
  sentencePatterns.foldl (bestSentenceStep candidate min_pos) (-1)

/-- `TextChunker._find_split_point`.  `min_pos = int(max_chars * 0.3)` is
modelled as `3 * max_chars / 10` (the float computation truncates to the
same value for all representable sizes). -/
def TextChunker.findSplitPoint (text : List Char) (max_chars : Nat) : Nat :=
  let candidate := text.take max_chars
  let min_pos : Int := ((3 * max_chars) / 10 : Nat)
  let para_pos := rfind ['\n', '\n'] candidate
  if min_pos < para_pos then (para_pos + 2).toNat
  else
    let best := bestSentence candidate min_pos
    if min_pos < best then best.toNat
    else
      let word_pos := rfind [' '] candidate
      if 0 < word_pos then (word_pos + 1).toNat
      else max_chars

/-- The `while remaining:` loop of `TextChunker.chunk`.  Each iteration
consumes at least one character, so `fuel = text.length + 1` never runs
out.  `acc` holds the chunks emitted so far (`chunk_index = len(chunks)`,
`total_chunks` stamped afterwards). -/
def chunkLoop (max_chars : Nat) :
    Nat → List Char → Nat → List TextChunk → List TextChunk
  | 0, _, _, acc => acc
  | fuel + 1, remaining, offset, acc =>
    let rs := remaining.dropWhile pws
    let offset' := offset + (remaining.length - rs.length)
    if rs.isEmpty then acc
    else if rs.length ≤ max_chars then
      let ct := rstrip rs
      acc ++ [⟨ct, offset', offset' + ct.length, acc.length, 0⟩]
    else
      let sp := TextChunker.findSplitPoint rs max_chars
      let ct := rstrip (rs.take sp)
      chunkLoop max_chars fuel (rs.drop sp) (offset' + sp)
        (acc ++ [⟨ct, offset', offset' + ct.length, acc.length, 0⟩])

/-- `TextChunker.chunk` from `src/backend/src/processing/chunker.py`
(`ValueError` modelled as `Except.error` with the source's message). -/
def TextChunker.chunk (text : List Char) (max_chars : Nat) :
    Except (List Char) (List TextChunk) :=
  if max_chars < 1 then .error "max_chars must be at least 1".toList
  else
    match strip text with
    | [] => .error "Text cannot be empty or whitespace-only".toList
    | s0 :: srest =>
      let stripped := s0 :: srest
      if stripped.length ≤ max_chars then
        let start_pos := pyIndexFrom text [s0] 0
        .ok [⟨stripped, start_pos, start_pos + stripped.length, 0, 1⟩]
      else
        let offset := pyIndexFrom text [s0] 0
        let chunks := chunkLoop max_chars (text.length + 1) stripped offset []
        .ok (chunks.map fun c => { c with total_chunks := chunks.length })

lemma isPrefixOf_length_le : ∀ (a l : List Char), a.isPrefixOf l → a.length ≤ l.length
  | [], l => by simp
  | x :: xs, [] => by simp [List.isPrefixOf]
  | x :: xs, y :: ys => by
    simp only [List.isPrefixOf, Bool.and_eq_true, List.length_cons]
    intro h
    have := isPrefixOf_length_le xs ys h.2
    omega

lemma dropWhile_head_false {p : Char → Bool} :
    ∀ (l : List Char) (c : Char) (r : List Char), l.dropWhile p = c :: r → p c = false
  | [], c, r => by simp [List.dropWhile]
  | x :: xs, c, r => by
    intro h
    rw [List.dropWhile_cons] at h
    by_cases hx : p x
    · rw [if_pos hx] at h
      exact dropWhile_head_false xs c r h
    · rw [if_neg hx] at h
      cases h
      simpa using hx

lemma rstrip_append (l : List Char) :
    rstrip l ++ ((l.reverse.takeWhile pws).reverse) = l := by
  rw [rstrip, ← List.reverse_append, List.takeWhile_append_dropWhile,
    List.reverse_reverse]

lemma rstrip_pref (l : List Char) : ∃ t, rstrip l ++ t = l :=
  ⟨_, rstrip_append l⟩

lemma rstrip_length_le (l : List Char) : (rstrip l).length ≤ l.length := by
  obtain ⟨t, ht⟩ := rstrip_pref l
  have := congrArg List.length ht
  simp at this
  omega

lemma indexFromGo_ws (s0 : Char) (hs0 : pws s0 = false) :
    ∀ (w : List Char), (∀ c ∈ w, pws c = true) →
      ∀ (i : Nat) (rest : List Char),
        indexFromGo [s0] i (w ++ s0 :: rest) = i + w.length
  | [], _ => by
    intro i rest
    simp [indexFromGo, List.isPrefixOf]
  | c :: w', hw => by
    intro i rest
    have hc : pws c = true := hw c (List.mem_cons_self _ _)
    have hne : s0 ≠ c := by
      intro h
      rw [h, hc] at hs0
      simp at hs0
    have hpre : ([s0].isPrefixOf (c :: (w' ++ s0 :: rest))) = false := by
      simp [List.isPrefixOf, hne]
    show indexFromGo [s0] i (c :: (w' ++ s0 :: rest)) = i + (c :: w').length
    rw [indexFromGo, if_neg (by simp [hpre])]
    have ih := indexFromGo_ws s0 hs0 w'
      (fun x hx => hw x (List.mem_cons_of_mem _ hx)) (i + 1) rest
    rw [ih]
    simp
    omega

lemma rfindGo_bound (pat : List Char) :
    ∀ (l : List Char) (i : Nat) (best : Int),
      (best = -1 ∨ (0 ≤ best ∧ best.toNat + pat.length ≤ i + l.length)) →
      (rfindGo pat l i best = -1 ∨
        (0 ≤ rfindGo pat l i best ∧
          (rfindGo pat l i best).toNat + pat.length ≤ i + l.length))
  | [], i, best => by
    intro h
    simpa [rfindGo] using h
  | c :: cs, i, best => by
    intro h
    rw [rfindGo]
    have hnext : (if pat.isPrefixOf (c :: cs) then (i : Int) else best) = -1 ∨
        (0 ≤ (if pat.isPrefixOf (c :: cs) then (i : Int) else best) ∧
          ((if pat.isPrefixOf (c :: cs) then (i : Int) else best)).toNat + pat.length ≤
            (i + 1) + cs.length) := by
      by_cases hp : pat.isPrefixOf (c :: cs)
      · rw [if_pos hp]
        right
        refine ⟨by positivity, ?_⟩
        have := isPrefixOf_length_le pat (c :: cs) hp
        simp at this ⊢
        omega
      · rw [if_neg hp]
        rcases h with h | ⟨h1, h2⟩
        · exact Or.inl h
        · right
          refine ⟨h1, ?_⟩
          simp at h2
          omega
    have hres := rfindGo_bound pat cs (i + 1) _ hnext
    rcases hres with h' | ⟨hg1, hg2⟩
    · exact Or.inl h'
    · right
      refine ⟨hg1, ?_⟩
      simp only [List.length_cons]
      omega

lemma rfind_bound (pat l : List Char) :
    rfind pat l = -1 ∨
      (0 ≤ rfind pat l ∧ (rfind pat l).toNat + pat.length ≤ l.length) := by
  have := rfindGo_bound pat l 0 (-1) (Or.inl rfl)
  simpa [rfind] using this

lemma bestSentenceStep_bound (cand : List Char) (mp : Int) (hmp : 0 ≤ mp)
    (b : Int) (p : List Char)
    (h : b = -1 ∨ (0 ≤ b ∧ b.toNat ≤ cand.length)) :
    bestSentenceStep cand mp b p = -1 ∨
      (0 ≤ bestSentenceStep cand mp b p ∧
        (bestSentenceStep cand mp b p).toNat ≤ cand.length) := by
  by_cases hpos : mp < rfind p cand
  · rw [bestSentenceStep, if_pos hpos]
    rcases rfind_bound p cand with hb | ⟨hb1, hb2⟩
    · rw [hb] at hpos
      omega
    · by_cases hlt : b < rfind p cand + (p.length : Int)
      · rw [if_pos hlt]
        right
        constructor
        · have : (0 : Int) ≤ (p.length : Int) := Int.ofNat_nonneg _
          omega
        · omega
      · rw [if_neg hlt]
        exact h
  · rw [bestSentenceStep, if_neg hpos]
    exact h

lemma bestSentence_fold_bound (cand : List Char) (mp : Int) (hmp : 0 ≤ mp) :
    ∀ (pats : List (List Char)) (b : Int),
      (b = -1 ∨ (0 ≤ b ∧ b.toNat ≤ cand.length)) →
      (pats.foldl (bestSentenceStep cand mp) b = -1 ∨
        (0 ≤ pats.foldl (bestSentenceStep cand mp) b ∧
          (pats.foldl (bestSentenceStep cand mp) b).toNat ≤ cand.length))
  | [], b => fun h => by simpa using h
  | p :: ps, b => fun h => by
    rw [List.foldl_cons]
    exact bestSentence_fold_bound cand mp hmp ps _
      (bestSentenceStep_bound cand mp hmp b p h)

lemma bestSentence_bound (cand : List Char) (mp : Int) (hmp : 0 ≤ mp) :
    bestSentence cand mp = -1 ∨
      (0 ≤ bestSentence cand mp ∧ (bestSentence cand mp).toNat ≤ cand.length) :=
  bestSentence_fold_bound cand mp hmp sentencePatterns (-1) (Or.inl rfl)

lemma findSplitPoint_le (l : List Char) (m : Nat) :
    TextChunker.findSplitPoint l m ≤ m := by
  have hcle : (l.take m).length ≤ m := List.length_take_le m l
  have hmp : (0 : Int) ≤ ((3 * m) / 10 : Nat) := Int.ofNat_nonneg _
  simp only [TextChunker.findSplitPoint]
  split_ifs with h1 h2 h3
  · rcases rfind_bound ['\n', '\n'] (l.take m) with hb | ⟨hb1, hb2⟩
    · rw [hb] at h1
      omega
    · simp only [List.length_cons, List.length_nil] at hb2
      omega
  · rcases bestSentence_bound (l.take m) _ hmp with hb | ⟨hb1, hb2⟩
    · rw [hb] at h2
      omega
    · omega
  · rcases rfind_bound [' '] (l.take m) with hb | ⟨hb1, hb2⟩
    · rw [hb] at h3
      omega
    · simp only [List.length_cons, List.length_nil] at hb2
      omega
  · exact le_refl m

lemma strip_decomp (text : List Char) :
    ∃ w trail, text = w ++ strip text ++ trail ∧ (∀ c ∈ w, pws c = true) := by
  refine ⟨text.takeWhile pws, ((text.dropWhile pws).reverse.takeWhile pws).reverse,
    ?_, ?_⟩
  · conv_lhs => rw [← List.takeWhile_append_dropWhile (p := pws) (l := text)]
    rw [List.append_assoc]
    congr 1
    exact (rstrip_append (text.dropWhile pws)).symm
  · intro c hc
    exact List.mem_takeWhile_imp hc

lemma strip_head_not_ws (text : List Char) (s0 : Char) (srest : List Char)
    (h : strip text = s0 :: srest) : pws s0 = false := by
  obtain ⟨t, ht⟩ := rstrip_pref (lstrip text)
  rw [strip] at h
  rw [h] at ht
  exact dropWhile_head_false text s0 (srest ++ t) (by rw [lstrip] at ht; simpa using ht.symm)

lemma chunk_start_decomp (text : List Char) (s0 : Char) (srest : List Char)
    (h : strip text = s0 :: srest) :
    ∃ trail, text.drop (pyIndexFrom text [s0] 0) = (s0 :: srest) ++ trail := by
  obtain ⟨w, trail, htext, hw⟩ := strip_decomp text
  have hs0 : pws s0 = false := strip_head_not_ws text s0 srest h
  rw [h] at htext
  have htext' : text = w ++ s0 :: (srest ++ trail) := by rw [htext]; simp
  refine ⟨trail, ?_⟩
  have hidx : pyIndexFrom text [s0] 0 = w.length := by
    rw [pyIndexFrom, List.drop_zero]
    conv_lhs => rw [htext']
    rw [indexFromGo_ws s0 hs0 w hw 0 (srest ++ trail)]
    omega
  rw [hidx]
  conv_lhs => rw [htext']
  rw [List.drop_left]
  simp

lemma drop_offset_shift (text : List Char) (offset : Nat) (A B trail : List Char)
    (hdrop : text.drop offset = (A ++ B) ++ trail) :
    text.drop (offset + A.length) = B ++ trail := by
  rw [← List.drop_drop, hdrop, List.append_assoc, List.drop_left]

lemma drop_offset_split (text : List Char) (off sp : Nat) (B trail : List Char)
    (hdrop : text.drop off = B ++ trail) (hsp : sp ≤ B.length) :
    text.drop (off + sp) = B.drop sp ++ trail := by
  rw [← List.drop_drop, hdrop, List.drop_append_of_le_length hsp]

lemma slice_of_pref (text : List Char) (off : Nat) (rs trail ct : List Char)
    (hoff : text.drop off = rs ++ trail) (hct : ∃ t, ct ++ t = rs) :
    pySlice text off (off + ct.length) = ct := by
  obtain ⟨t, ht⟩ := hct
  rw [pySlice, show off + ct.length - off = ct.length from by omega, hoff, ← ht,
    List.append_assoc, List.take_left]

lemma chunkLoop_slice (text : List Char) (max_chars : Nat) :
    ∀ (fuel : Nat) (remaining : List Char) (offset : Nat) (acc : List TextChunk)
      (trail : List Char),
      text.drop offset = remaining ++ trail →
      (∀ c ∈ acc, pySlice text c.start_char c.end_char = c.text) →
      ∀ c ∈ chunkLoop max_chars fuel remaining offset acc,
        pySlice text c.start_char c.end_char = c.text
  | 0, remaining, offset, acc => by
    intro trail hdrop hacc c hc
    rw [chunkLoop] at hc
    exact hacc c hc
  | fuel + 1, remaining, offset, acc => by
    intro trail hdrop hacc c hc
    simp only [chunkLoop] at hc
    have hsplit : remaining = remaining.takeWhile pws ++ remaining.dropWhile pws :=
      (List.takeWhile_append_dropWhile pws remaining).symm
    have hlen : (remaining.takeWhile pws).length + (remaining.dropWhile pws).length =
        remaining.length := by
      conv_rhs => rw [hsplit]
      rw [List.length_append]
    have hoff : text.drop (offset + (remaining.length - (remaining.dropWhile pws).length)) =
        remaining.dropWhile pws ++ trail := by
      rw [show remaining.length - (remaining.dropWhile pws).length =
          (remaining.takeWhile pws).length from by omega]
      exact drop_offset_shift text offset _ _ trail (by rw [← hsplit]; exact hdrop)
    by_cases hemp : (remaining.dropWhile pws).isEmpty = true
    · rw [if_pos hemp] at hc
      exact hacc c hc
    · rw [if_neg hemp] at hc
      by_cases hfit : (remaining.dropWhile pws).length ≤ max_chars
      · rw [if_pos hfit] at hc
        rcases List.mem_append.mp hc with h | h
        · exact hacc c h
        · have hcq := List.mem_singleton.mp h
          subst hcq
          exact slice_of_pref text _ (remaining.dropWhile pws) trail _ hoff
            (rstrip_pref (remaining.dropWhile pws))
      · rw [if_neg hfit] at hc
        have hsple : TextChunker.findSplitPoint (remaining.dropWhile pws) max_chars ≤
            max_chars := findSplitPoint_le _ _
        have hsp_le : TextChunker.findSplitPoint (remaining.dropWhile pws) max_chars ≤
            (remaining.dropWhile pws).length := by omega
        have hoff2 : text.drop
            (offset + (remaining.length - (remaining.dropWhile pws).length) +
              TextChunker.findSplitPoint (remaining.dropWhile pws) max_chars) =
            (remaining.dropWhile pws).drop
              (TextChunker.findSplitPoint (remaining.dropWhile pws) max_chars) ++ trail :=
          drop_offset_split text _ _ _ trail hoff hsp_le
        refine chunkLoop_slice text max_chars fuel _ _ _ trail hoff2 ?_ c hc
        intro c' hc'
        rcases List.mem_append.mp hc' with h | h
        · exact hacc c' h
        · have hcq := List.mem_singleton.mp h
          subst hcq
          refine slice_of_pref text _ (remaining.dropWhile pws) trail _ hoff ?_
          obtain ⟨t1, ht1⟩ := rstrip_pref ((remaining.dropWhile pws).take
            (TextChunker.findSplitPoint (remaining.dropWhile pws) max_chars))
          refine ⟨t1 ++ (remaining.dropWhile pws).drop
            (TextChunker.findSplitPoint (remaining.dropWhile pws) max_chars), ?_⟩
          rw [← List.append_assoc, ht1, List.take_append_drop]

lemma chunkLoop_len (max_chars : Nat) :
    ∀ (fuel : Nat) (remaining : List Char) (offset : Nat) (acc : List TextChunk),
      (∀ c ∈ acc, c.text.length ≤ max_chars) →
      ∀ c ∈ chunkLoop max_chars fuel remaining offset acc, c.text.length ≤ max_chars
  | 0, remaining, offset, acc => by
    intro hacc c hc
    rw [chunkLoop] at hc
    exact hacc c hc
  | fuel + 1, remaining, offset, acc => by
    intro hacc c hc
    simp only [chunkLoop] at hc
    by_cases hemp : (remaining.dropWhile pws).isEmpty = true
    · rw [if_pos hemp] at hc
      exact hacc c hc
    · rw [if_neg hemp] at hc
      by_cases hfit : (remaining.dropWhile pws).length ≤ max_chars
      · rw [if_pos hfit] at hc
        rcases List.mem_append.mp hc with h | h
        · exact hacc c h
        · have hcq := List.mem_singleton.mp h
          subst hcq
          have := rstrip_length_le (remaining.dropWhile pws)
          simpa using le_trans this hfit
      · rw [if_neg hfit] at hc
        refine chunkLoop_len max_chars fuel _ _ _ ?_ c hc
        intro c' hc'
        rcases List.mem_append.mp hc' with h | h
        · exact hacc c' h
        · have hcq := List.mem_singleton.mp h
          subst hcq
          have h1 := rstrip_length_le ((remaining.dropWhile pws).take
            (TextChunker.findSplitPoint (remaining.dropWhile pws) max_chars))
          have h2 : ((remaining.dropWhile pws).take
              (TextChunker.findSplitPoint (remaining.dropWhile pws) max_chars)).length ≤
              TextChunker.findSplitPoint (remaining.dropWhile pws) max_chars :=
            List.length_take_le _ _
          have h3 := findSplitPoint_le (remaining.dropWhile pws) max_chars
          simp only []
          omega

/-- **C2.** For every input whose strip is non-empty and every
`max_chars ≥ 1`, each chunk `c` returned by `TextChunker.chunk` satisfies
`text[c.start_char : c.end_char] == c.text` (offsets into the original,
untrimmed input). -/
theorem chunk_offsets_slice (text : List Char) (max_chars : Nat)
    (hm : 1 ≤ max_chars) (hs : strip text ≠ []) :
    ∀ cs, TextChunker.chunk text max_chars = .ok cs →
      ∀ c ∈ cs, pySlice text c.start_char c.end_char = c.text := by
  intro cs hcs c hc
  rcases hsd : strip text with _ | ⟨s0, srest⟩
  · exact absurd hsd hs
  · have hnm : ¬ (max_chars < 1) := by omega
    simp only [TextChunker.chunk, hsd, if_neg hnm] at hcs
    obtain ⟨trail, hdrop⟩ := chunk_start_decomp text s0 srest hsd
    by_cases hfit : (s0 :: srest).length ≤ max_chars
    · rw [if_pos hfit] at hcs
      injection hcs with h
      rw [← h] at hc
      have hcq := List.mem_singleton.mp hc
      subst hcq
      exact slice_of_pref text _ (s0 :: srest) trail _ hdrop ⟨[], by simp⟩
    · rw [if_neg hfit] at hcs
      injection hcs with h
      rw [← h] at hc
      obtain ⟨c', hc', hfc⟩ := List.mem_map.mp hc
      have hp := chunkLoop_slice text max_chars (text.length + 1) (s0 :: srest)
        (pyIndexFrom text [s0] 0) [] trail hdrop (by intro x hx; simp at hx) c' hc'
      rw [← hfc]
      simpa using hp

/-- Witness for `chunk_offsets_slice`: `text = " Hi."`, `max_chars = 10`
yields the single chunk `("Hi.", 1, 4)` and the slice law holds. -/
theorem chunk_offsets_slice_witness :
    (1 : Nat) ≤ 10 ∧ strip " Hi.".toList ≠ [] ∧
      pySlice " Hi.".toList 1 4 = "Hi.".toList :=
  ⟨by omega, by decide,
    chunk_offsets_slice " Hi.".toList 10 (by omega) (by decide)
      [⟨"Hi.".toList, 1, 4, 0, 1⟩] rfl ⟨"Hi.".toList, 1, 4, 0, 1⟩
      (List.mem_singleton.mpr rfl)⟩

/-- **C3.** For every input whose strip is non-empty and every
`max_chars ≥ 1`, each chunk `c` returned by `TextChunker.chunk` satisfies
`len(c.text) ≤ max_chars`. -/
theorem chunk_len_le (text : List Char) (max_chars : Nat)
    (hm : 1 ≤ max_chars) (hs : strip text ≠ []) :
    ∀ cs, TextChunker.chunk text max_chars = .ok cs →
      ∀ c ∈ cs, c.text.length ≤ max_chars := by
  intro cs hcs c hc
  rcases hsd : strip text with _ | ⟨s0, srest⟩
  · exact absurd hsd hs
  · have hnm : ¬ (max_chars < 1) := by omega
    simp only [TextChunker.chunk, hsd, if_neg hnm] at hcs
    by_cases hfit : (s0 :: srest).length ≤ max_chars
    · rw [if_pos hfit] at hcs
      injection hcs with h
      rw [← h] at hc
      have hcq := List.mem_singleton.mp hc
      subst hcq
      simpa using hfit
    · rw [if_neg hfit] at hcs
      injection hcs with h
      rw [← h] at hc
      obtain ⟨c', hc', hfc⟩ := List.mem_map.mp hc
      have hp := chunkLoop_len max_chars (text.length + 1) (s0 :: srest)
        (pyIndexFrom text [s0] 0) [] (by intro x hx; simp at hx) c' hc'
      rw [← hfc]
      simpa using hp

/-- Witness for `chunk_len_le`: `text = "A. B."`, `max_chars = 3` splits at
the sentence boundary into `"A."` and `"B."`, both of length ≤ 3. -/
theorem chunk_len_le_witness :
    (1 : Nat) ≤ 3 ∧ strip "A. B.".toList ≠ [] ∧
      ("A.".toList).length ≤ 3 ∧ ("B.".toList).length ≤ 3 :=
  ⟨by omega, by decide,
    chunk_len_le "A. B.".toList 3 (by omega) (by decide)
      [⟨"A.".toList, 0, 2, 0, 2⟩, ⟨"B.".toList, 3, 5, 1, 2⟩] rfl
      ⟨"A.".toList, 0, 2, 0, 2⟩ (by simp),
    chunk_len_le "A. B.".toList 3 (by omega) (by decide)
      [⟨"A.".toList, 0, 2, 0, 2⟩, ⟨"B.".toList, 3, 5, 1, 2⟩] rfl
      ⟨"B.".toList, 3, 5, 1, 2⟩ (by simp)⟩

/-! ## Error sanitization (src/backend/src/errors.py) -/

/-- The key-like character class `[A-Za-z0-9_\-]` (`Char.isAlpha` and
`Char.isDigit` are the ASCII ranges, matching the regex). -/
def isKeyChar (c : Char) : Bool := c.isAlpha || c.isDigit || c = '_' || c = '-'

/-- Replacement token of the first substitution. -/
def redactedToken : List Char := "[REDACTED]".toList

/-- Replacement token of the second substitution. -/
def urlToken : List Char := "[URL REDACTED]".toList

/-- Replacement for a maximal key-character run: runs of 20 or more become
`[REDACTED]` (the greedy `{20,}` always matches a whole maximal run). -/
def flushRun (run : List Char) : List Char :=
  if 20 ≤ run.length then redactedToken else run

/-- Scanner of `re.sub(r"[A-Za-z0-9_\-]{20,}", "[REDACTED]", s)`: `run` is
the current maximal key-run, accumulated in reverse. -/
def redactKeysGo : List Char → List Char → List Char
  | run, [] => flushRun run.reverse
  | run, c :: cs =>
    if isKeyChar c then redactKeysGo (c :: run) cs
    else flushRun run.reverse ++ c :: redactKeysGo [] cs

/-- `re.sub(r"[A-Za-z0-9_\-]{20,}", "[REDACTED]", s)`. -/
def redactKeys (l : List Char) : List Char := redactKeysGo [] l

/-- Does `re.search(r"https?://\S+")` match at position 0, i.e. does the
text begin with `http://` or `https://` followed by one non-whitespace
character? -/
def urlMatch : List Char → Bool
  | 'h' :: 't' :: 't' :: 'p' :: ':' :: '/' :: '/' :: c :: _ => !(pws c)
  | 'h' :: 't' :: 't' :: 'p' :: 's' :: ':' :: '/' :: '/' :: c :: _ => !(pws c)
  | _ => false

/-- Drop the leading maximal non-whitespace block. -/
def stripNonSpc (l : List Char) : List Char := l.dropWhile (fun c => !(pws c))

/-- Scanner of `re.sub(r"https?://\S+", "[URL REDACTED]", s)`: at a match
position the match is exactly the maximal non-whitespace block (the scheme
is non-whitespace and `\S+` is greedy), and scanning resumes after it.
Each step consumes at least one character, so `fuel = l.length` suffices. -/
def redactUrlsGo : Nat → List Char → List Char
  | 0, l => l
  | _ + 1, [] => []
  | fuel + 1, c :: cs =>
    if urlMatch (c :: cs) then urlToken ++ redactUrlsGo fuel (stripNonSpc (c :: cs))
    else c :: redactUrlsGo fuel cs

/-- `re.sub(r"https?://\S+", "[URL REDACTED]", s)`. -/
def redactUrls (l : List Char) : List Char := redactUrlsGo l.length l

/-- `sanitize_provider_error` from `src/backend/src/errors.py`: key-like
runs first, then URLs. -/
def sanitize_provider_error (l : List Char) : List Char :=
  redactUrls (redactKeys l)

/-- `l` has a run of 20 key-class characters starting at its head. -/
def longRunAt (l : List Char) : Bool :=
  ((l.take 20).length == 20) && (l.take 20).all isKeyChar

/-- `l` contains a run of 20 or more key-class characters (i.e. the first
regex of `sanitize_provider_error` has a match in `l`). -/
def hasLongRun : List Char → Bool
  | [] => false
  | c :: cs => longRunAt (c :: cs) || hasLongRun cs

/-- `l` contains `http(s)://` followed by a non-whitespace character (i.e.
the second regex of `sanitize_provider_error` has a match in `l`). -/
def hasUrl : List Char → Bool
  | [] => false
  | c :: cs => urlMatch (c :: cs) || hasUrl cs

/-- Substring containment (Python `in`). -/
def containsSub (needle : List Char) : List Char → Bool
  | [] => needle.isEmpty
  | c :: cs => needle.isPrefixOf (c :: cs) || containsSub needle cs

/-- Characters that can occur in the scheme part `https?://` of a URL
match.  Disjoint from the characters of `urlToken`. -/
def patChar (c : Char) : Bool :=
  c = 'h' || c = 't' || c = 'p' || c = 's' || c = ':' || c = '/'

lemma take_all_le_takeWhile {p : Char → Bool} :
    ∀ (n : Nat) (l : List Char), (l.take n).length = n →
      (l.take n).all p = true → n ≤ (l.takeWhile p).length
  | 0, l => by simp
  | n + 1, [] => by simp
  | n + 1, c :: cs => by
    intro hlen hall
    simp only [List.take_succ_cons, List.length_cons, List.all_cons,
      Bool.and_eq_true] at hlen hall
    rw [List.takeWhile_cons, if_pos hall.1]
    have := take_all_le_takeWhile n cs (by omega) hall.2
    simp only [List.length_cons]
    omega

lemma takeWhile_le_longRunAt :
    ∀ (l : List Char), 20 ≤ (l.takeWhile isKeyChar).length → longRunAt l = true := by
  intro l h
  have htw : ∀ c ∈ l.takeWhile isKeyChar, isKeyChar c = true := fun c hc =>
    List.mem_takeWhile_imp hc
  have hdec : l.takeWhile isKeyChar ++ l.dropWhile isKeyChar = l :=
    List.takeWhile_append_dropWhile isKeyChar l
  have htake : l.take 20 = (l.takeWhile isKeyChar).take 20 := by
    conv_lhs => rw [← hdec]
    rw [List.take_append_of_le_length h]
  rw [longRunAt, htake]
  have hlen : ((l.takeWhile isKeyChar).take 20).length = 20 := by
    rw [List.length_take]
    omega
  rw [hlen]
  simp only [beq_self_eq_true, Bool.true_and]
  rw [List.all_eq_true]
  intro c hc
  exact htw c (List.mem_of_mem_take hc)

lemma longRunAt_le_takeWhile :
    ∀ (l : List Char), longRunAt l = true → 20 ≤ (l.takeWhile isKeyChar).length := by
  intro l h
  rw [longRunAt, Bool.and_eq_true, beq_iff_eq] at h
  exact take_all_le_takeWhile 20 l h.1 h.2

lemma longRunAt_iff (l : List Char) :
    longRunAt l = true ↔ 20 ≤ (l.takeWhile isKeyChar).length :=
  ⟨longRunAt_le_takeWhile l, takeWhile_le_longRunAt l⟩

lemma hasLongRun_cons (c : Char) (l : List Char) :
    hasLongRun (c :: l) = (longRunAt (c :: l) || hasLongRun l) := rfl

lemma longRunAt_false_of_short (l : List Char) (h : l.length < 20) :
    longRunAt l = false := by
  cases hE : longRunAt l
  · rfl
  · have := longRunAt_le_takeWhile l hE
    have h2 : (l.takeWhile isKeyChar).length ≤ l.length :=
      (List.takeWhile_sublist isKeyChar).length_le
    omega

lemma hasLongRun_false_of_short :
    ∀ (l : List Char), l.length < 20 → hasLongRun l = false
  | [], _ => rfl
  | c :: cs, h => by
    rw [hasLongRun_cons, longRunAt_false_of_short (c :: cs) h,
      hasLongRun_false_of_short cs (by simp at h; omega)]
    rfl

lemma hasLongRun_tail_false {c : Char} {l : List Char}
    (h : hasLongRun (c :: l) = false) : hasLongRun l = false := by
  rw [hasLongRun_cons, Bool.or_eq_false_iff] at h
  exact h.2

lemma hasLongRun_cons_nonkey (c : Char) (l : List Char)
    (hc : isKeyChar c = false) : hasLongRun (c :: l) = hasLongRun l := by
  rw [hasLongRun_cons]
  have : longRunAt (c :: l) = false := by
    cases hE : longRunAt (c :: l)
    · rfl
    · have := longRunAt_le_takeWhile _ hE
      rw [List.takeWhile_cons, if_neg (by simp [hc])] at this
      simp at this
  rw [this, Bool.false_or]

lemma hasLongRun_append_false_right :
    ∀ (a b : List Char), hasLongRun (a ++ b) = false → hasLongRun b = false
  | [], b => fun h => h
  | x :: a', b => fun h => by
    have : hasLongRun (a' ++ b) = false := hasLongRun_tail_false h
    exact hasLongRun_append_false_right a' b this

lemma takeWhile_append_nonkey (c : Char) (hc : isKeyChar c = false) :
    ∀ (u b : List Char),
      ((u ++ c :: b).takeWhile isKeyChar).length = (u.takeWhile isKeyChar).length
  | [], b => by
    simp [List.takeWhile_cons, hc]
  | y :: u', b => by
    by_cases hy : isKeyChar y
    · simp only [List.cons_append, List.takeWhile_cons, if_pos hy, List.length_cons]
      rw [takeWhile_append_nonkey c hc u' b]
    · simp only [List.cons_append, List.takeWhile_cons, if_neg hy]

lemma hasLongRun_append_nonkey (c : Char) (hc : isKeyChar c = false) :
    ∀ (a b : List Char), hasLongRun a = false → hasLongRun (c :: b) = false →
      hasLongRun (a ++ c :: b) = false
  | [], b => fun _ hb => hb
  | x :: a', b => fun ha hb => by
    have ha' : hasLongRun a' = false := hasLongRun_tail_false ha
    have hLRA : longRunAt (x :: a') = false := by
      rw [hasLongRun_cons, Bool.or_eq_false_iff] at ha
      exact ha.1
    show hasLongRun ((x :: a') ++ c :: b) = false
    rw [List.cons_append, hasLongRun_cons, Bool.or_eq_false_iff]
    constructor
    · cases hE : longRunAt (x :: (a' ++ c :: b))
      · rfl
      · have h1 := longRunAt_le_takeWhile _ hE
        have h2 : ((x :: a' ++ c :: b).takeWhile isKeyChar).length =
            ((x :: a').takeWhile isKeyChar).length :=
          takeWhile_append_nonkey c hc (x :: a') b
        rw [List.cons_append] at h2
        rw [h2] at h1
        have := takeWhile_le_longRunAt (x :: a') h1
        rw [this] at hLRA
        exact hLRA
    · exact hasLongRun_append_nonkey c hc a' b ha' hb

lemma takeWhile_append_allkey {p : Char → Bool} :
    ∀ (u v : List Char), (∀ c ∈ u, p c = true) →
      (u ++ v).takeWhile p = u ++ v.takeWhile p
  | [], v => by simp
  | y :: u', v => fun hu => by
    rw [List.cons_append, List.takeWhile_cons, if_pos (hu y (List.mem_cons_self _ _)),
      takeWhile_append_allkey u' v (fun c hc => hu c (List.mem_cons_of_mem _ hc)),
      List.cons_append]

lemma hasLongRun_allkey_append (u v : List Char) (hu : ∀ c ∈ u, isKeyChar c = true)
    (hlen : 20 ≤ u.length) : hasLongRun (u ++ v) = true := by
  rcases u with _ | ⟨u0, u'⟩
  · simp at hlen
  · rw [List.cons_append, hasLongRun_cons]
    have hlra : longRunAt (u0 :: (u' ++ v)) = true := by
      apply takeWhile_le_longRunAt
      rw [show (u0 :: (u' ++ v)) = (u0 :: u') ++ v from rfl]
      rw [takeWhile_append_allkey (u0 :: u') v hu, List.length_append]
      simp only [List.length_cons] at hlen ⊢
      omega
    rw [hlra, Bool.true_or]

lemma redactKeysGo_id :
    ∀ (l run : List Char), (∀ c ∈ run, isKeyChar c = true) →
      hasLongRun (run.reverse ++ l) = false →
      redactKeysGo run l = run.reverse ++ l
  | [], run => fun hrun hno => by
    have hshort : run.length < 20 := by
      by_contra hge
      have : hasLongRun (run.reverse ++ []) = true :=
        hasLongRun_allkey_append run.reverse []
          (fun c hc => hrun c (List.mem_reverse.mp hc)) (by simp; omega)
      rw [this] at hno
      exact Bool.noConfusion hno
    rw [redactKeysGo, flushRun, if_neg (by simp; omega), List.append_nil]
  | c :: cs, run => fun hrun hno => by
    by_cases hkey : isKeyChar c
    · rw [redactKeysGo, if_pos hkey]
      have hrun' : ∀ x ∈ c :: run, isKeyChar x = true := by
        intro x hx
        rcases List.mem_cons.mp hx with h | h
        · subst h; exact hkey
        · exact hrun x h
      have hno' : hasLongRun ((c :: run).reverse ++ cs) = false := by
        rw [List.reverse_cons, List.append_assoc]
        simpa using hno
      rw [redactKeysGo_id cs (c :: run) hrun' hno']
      rw [List.reverse_cons, List.append_assoc]
      simp
    · rw [redactKeysGo, if_neg hkey]
      have hshort : run.length < 20 := by
        by_contra hge
        have : hasLongRun (run.reverse ++ c :: cs) = true :=
          hasLongRun_allkey_append run.reverse (c :: cs)
            (fun x hx => hrun x (List.mem_reverse.mp hx)) (by simp; omega)
        rw [this] at hno
        exact Bool.noConfusion hno
      have hcs : hasLongRun cs = false := by
        have h1 : hasLongRun (c :: cs) = false :=
          hasLongRun_append_false_right run.reverse (c :: cs) hno
        exact hasLongRun_tail_false h1
      rw [flushRun, if_neg (by simp; omega)]
      rw [redactKeysGo_id cs [] (by intro x hx; simp at hx) (by simpa using hcs)]
      simp

lemma redactKeysGo_norun :
    ∀ (l run : List Char), (∀ c ∈ run, isKeyChar c = true) →
      hasLongRun (redactKeysGo run l) = false
  | [], run => fun hrun => by
    rw [redactKeysGo, flushRun]
    by_cases hge : 20 ≤ run.reverse.length
    · rw [if_pos hge]
      decide
    · rw [if_neg hge]
      exact hasLongRun_false_of_short run.reverse (by omega)
  | c :: cs, run => fun hrun => by
    by_cases hkey : isKeyChar c
    · rw [redactKeysGo, if_pos hkey]
      exact redactKeysGo_norun cs (c :: run) (by
        intro x hx
        rcases List.mem_cons.mp hx with h | h
        · subst h; exact hkey
        · exact hrun x h)
    · rw [redactKeysGo, if_neg hkey]
      have hrec : hasLongRun (redactKeysGo [] cs) = false :=
        redactKeysGo_norun cs [] (by intro x hx; simp at hx)
      have hcons : hasLongRun (c :: redactKeysGo [] cs) = false := by
        rw [hasLongRun_cons_nonkey c _ (by simpa using hkey)]
        exact hrec
      apply hasLongRun_append_nonkey c (by simpa using hkey)
      · rw [flushRun]
        by_cases hge : 20 ≤ run.reverse.length
        · rw [if_pos hge]
          decide
        · rw [if_neg hge]
          exact hasLongRun_false_of_short run.reverse (by omega)
      · exact hcons

lemma redactKeys_id (l : List Char) (h : hasLongRun l = false) :
    redactKeys l = l := by
  rw [redactKeys, redactKeysGo_id l [] (by intro x hx; simp at hx) (by simpa using h)]
  rfl

lemma redactKeys_norun (l : List Char) : hasLongRun (redactKeys l) = false :=
  redactKeysGo_norun l [] (by intro x hx; simp at hx)

lemma urlMatch_eq_true_iff (l : List Char) : urlMatch l = true ↔
    (∃ d r, l = 'h' :: 't' :: 't' :: 'p' :: ':' :: '/' :: '/' :: d :: r ∧ pws d = false)
    ∨ (∃ d r, l = 'h' :: 't' :: 't' :: 'p' :: 's' :: ':' :: '/' :: '/' :: d :: r ∧
        pws d = false) := by
  constructor
  · intro h
    unfold urlMatch at h
    split at h
    · next d r => exact Or.inl ⟨d, r, rfl, by simpa using h⟩
    · next d r => exact Or.inr ⟨d, r, rfl, by simpa using h⟩
    · simp at h
  · rintro (⟨d, r, rfl, hd⟩ | ⟨d, r, rfl, hd⟩) <;> simp [urlMatch, hd]

lemma urlMatch_head {l : List Char} (h : urlMatch l = true) : ∃ r, l = 'h' :: r := by
  rcases (urlMatch_eq_true_iff l).mp h with ⟨d, r, rfl, _⟩ | ⟨d, r, rfl, _⟩ <;>
    exact ⟨_, rfl⟩

lemma urlMatch_ne_h {x : Char} {r : List Char} (hx : x ≠ 'h') :
    urlMatch (x :: r) = false := by
  cases hE : urlMatch (x :: r)
  · rfl
  · obtain ⟨r', hr⟩ := urlMatch_head hE
    injection hr with h1 _
    exact absurd h1 hx

lemma hasUrl_append_of_no_h :
    ∀ (a : List Char), (∀ c ∈ a, c ≠ 'h') → ∀ (m : List Char),
      hasUrl (a ++ m) = hasUrl m
  | [], _ => fun m => rfl
  | x :: xs, ha => fun m => by
    show (urlMatch (x :: (xs ++ m)) || hasUrl (xs ++ m)) = hasUrl m
    rw [urlMatch_ne_h (ha x (List.mem_cons_self _ _)),
      hasUrl_append_of_no_h xs (fun c hc => ha c (List.mem_cons_of_mem _ hc)) m,
      Bool.false_or]

lemma stripNonSpc_length_le {c : Char} (cs : List Char)
    (h : urlMatch (c :: cs) = true) : (stripNonSpc (c :: cs)).length ≤ cs.length := by
  obtain ⟨r, hr⟩ := urlMatch_head h
  injection hr with h1 _
  subst h1
  rw [stripNonSpc, List.dropWhile_cons, if_pos (by decide)]
  exact (List.dropWhile_sublist _).length_le

lemma hasLongRun_dropWhile {q : Char → Bool} :
    ∀ (l : List Char), hasLongRun l = false → hasLongRun (l.dropWhile q) = false
  | [], h => h
  | c :: cs, h => by
    rw [List.dropWhile_cons]
    by_cases hq : q c
    · rw [if_pos hq]
      exact hasLongRun_dropWhile cs (hasLongRun_tail_false h)
    · rw [if_neg hq]
      exact h

lemma redactUrlsGo_norun :
    ∀ (fuel : Nat) (l : List Char), l.length ≤ fuel → hasLongRun l = false →
      hasLongRun (redactUrlsGo fuel l) = false ∧
      ((redactUrlsGo fuel l).takeWhile isKeyChar).length ≤
        (l.takeWhile isKeyChar).length
  | 0, l => fun _ h => ⟨h, le_refl _⟩
  | fuel + 1, [] => fun _ h => ⟨h, le_refl _⟩
  | fuel + 1, c :: cs => fun hfuel h => by
    by_cases hm : urlMatch (c :: cs) = true
    · simp only [redactUrlsGo, if_pos hm]
      have hlen : (stripNonSpc (c :: cs)).length ≤ fuel := by
        have := stripNonSpc_length_le cs hm
        simp only [List.length_cons] at hfuel
        omega
      have hsub : hasLongRun (stripNonSpc (c :: cs)) = false :=
        hasLongRun_dropWhile _ h
      have ih := redactUrlsGo_norun fuel (stripNonSpc (c :: cs)) hlen hsub
      constructor
      · have hsplitTok : urlToken ++ redactUrlsGo fuel (stripNonSpc (c :: cs)) =
            "[URL REDACTED".toList ++
              ']' :: redactUrlsGo fuel (stripNonSpc (c :: cs)) := rfl
        rw [hsplitTok]
        apply hasLongRun_append_nonkey ']' (by decide)
        · decide
        · rw [hasLongRun_cons_nonkey ']' _ (by decide)]
          exact ih.1
      · have htw : (urlToken ++
            redactUrlsGo fuel (stripNonSpc (c :: cs))).takeWhile isKeyChar = [] := by
          rw [show urlToken ++ redactUrlsGo fuel (stripNonSpc (c :: cs)) =
            '[' :: ("URL REDACTED]".toList ++
              redactUrlsGo fuel (stripNonSpc (c :: cs))) from rfl]
          rw [List.takeWhile_cons, if_neg (by decide)]
        rw [htw]
        simp
    · simp only [redactUrlsGo, if_neg hm]
      have hcs : hasLongRun cs = false := hasLongRun_tail_false h
      have ih := redactUrlsGo_norun fuel cs (by simp at hfuel; omega) hcs
      have hlkr : ((c :: redactUrlsGo fuel cs).takeWhile isKeyChar).length ≤
          ((c :: cs).takeWhile isKeyChar).length := by
        by_cases hkey : isKeyChar c
        · rw [List.takeWhile_cons, if_pos hkey, List.takeWhile_cons, if_pos hkey]
          simp only [List.length_cons]
          omega
        · rw [List.takeWhile_cons, if_neg hkey]
          simp
      refine ⟨?_, hlkr⟩
      rw [hasLongRun_cons, Bool.or_eq_false_iff]
      refine ⟨?_, ih.1⟩
      cases hE : longRunAt (c :: redactUrlsGo fuel cs)
      · rfl
      · exfalso
        have h1 := longRunAt_le_takeWhile _ hE
        have h2 : 20 ≤ ((c :: cs).takeWhile isKeyChar).length := by omega
        have h3 := takeWhile_le_longRunAt _ h2
        rw [hasLongRun_cons, h3, Bool.true_or] at h
        exact Bool.noConfusion h

lemma redactUrlsGo_nourl :
    ∀ (fuel : Nat) (l : List Char), l.length ≤ fuel →
      hasUrl (redactUrlsGo fuel l) = false ∧
      (∀ k, ((redactUrlsGo fuel l).take k).all patChar = true →
        (redactUrlsGo fuel l).take k = l.take k ∧
        (∀ d r, (redactUrlsGo fuel l).drop k = d :: r →
          ((∃ r2, l.drop k = d :: r2) ∨ (d = '[' ∧ urlMatch (l.drop k) = true))))
  | 0, l => fun hfuel => by
    have hl : l = [] := List.length_eq_zero.mp (by omega)
    subst hl
    exact ⟨rfl, by
      intro k hk
      exact ⟨rfl, by intro d r hdr; simp [redactUrlsGo] at hdr⟩⟩
  | fuel + 1, [] => fun _ =>
    ⟨rfl, by
      intro k hk
      exact ⟨rfl, by intro d r hdr; simp [redactUrlsGo] at hdr⟩⟩
  | fuel + 1, c :: cs => fun hfuel => by
    by_cases hm : urlMatch (c :: cs) = true
    · simp only [redactUrlsGo, if_pos hm]
      have hlen : (stripNonSpc (c :: cs)).length ≤ fuel := by
        have := stripNonSpc_length_le cs hm
        simp only [List.length_cons] at hfuel
        omega
      have ih := redactUrlsGo_nourl fuel (stripNonSpc (c :: cs)) hlen
      constructor
      · rw [hasUrl_append_of_no_h urlToken (by decide) _]
        exact ih.1
      · intro k hk
        match k with
        | 0 =>
          refine ⟨rfl, ?_⟩
          intro d r hdr
          right
          have hdr' : ('[' : Char) ::
              ("URL REDACTED]".toList ++ redactUrlsGo fuel (stripNonSpc (c :: cs))) =
              d :: r := hdr
          injection hdr' with h1 _
          exact ⟨h1.symm, by simpa using hm⟩
        | k + 1 =>
          exfalso
          have hform : (urlToken ++ redactUrlsGo fuel (stripNonSpc (c :: cs))).take (k + 1) =
              '[' :: (("URL REDACTED]".toList ++
                redactUrlsGo fuel (stripNonSpc (c :: cs))).take k) := rfl
          rw [hform, List.all_cons, Bool.and_eq_true] at hk
          have := hk.1
          simp [patChar] at this
    · simp only [redactUrlsGo, if_neg hm]
      have ih := redactUrlsGo_nourl fuel cs (by simp at hfuel; omega)
      constructor
      · show (urlMatch (c :: redactUrlsGo fuel cs) || hasUrl (redactUrlsGo fuel cs)) = false
        rw [ih.1, Bool.or_false]
        cases hE : urlMatch (c :: redactUrlsGo fuel cs)
        · rfl
        · exfalso
          rcases (urlMatch_eq_true_iff _).mp hE with ⟨d, r, heq, hd⟩ | ⟨d, r, heq, hd⟩
          · injection heq with hc hout
            subst hc
            have htake : ((redactUrlsGo fuel cs).take 6).all patChar = true := by
              rw [hout]; rfl
            obtain ⟨hteq, hdrop⟩ := ih.2 6 htake
            have hdr : (redactUrlsGo fuel cs).drop 6 = d :: r := by rw [hout]; rfl
            have hcs6 : cs.take 6 = 't' :: 't' :: 'p' :: ':' :: '/' :: '/' :: [] := by
              rw [← hteq, hout]; rfl
            rcases hdrop d r hdr with ⟨r2, hr2⟩ | ⟨hdb, hum⟩
            · have hcs : 'h' :: cs =
                  'h' :: 't' :: 't' :: 'p' :: ':' :: '/' :: '/' :: d :: r2 := by
                conv_lhs => rw [← List.take_append_drop 6 cs]
                rw [hcs6, hr2]
                rfl
              rw [hcs] at hm
              exact hm ((urlMatch_eq_true_iff _).mpr (Or.inl ⟨d, r2, rfl, hd⟩))
            · obtain ⟨r3, hr3⟩ := urlMatch_head hum
              have hcs : 'h' :: cs =
                  'h' :: 't' :: 't' :: 'p' :: ':' :: '/' :: '/' :: 'h' :: r3 := by
                conv_lhs => rw [← List.take_append_drop 6 cs]
                rw [hcs6, hr3]
                rfl
              rw [hcs] at hm
              exact hm ((urlMatch_eq_true_iff _).mpr (Or.inl ⟨'h', r3, rfl, by decide⟩))
          · injection heq with hc hout
            subst hc
            have htake : ((redactUrlsGo fuel cs).take 7).all patChar = true := by
              rw [hout]; rfl
            obtain ⟨hteq, hdrop⟩ := ih.2 7 htake
            have hdr : (redactUrlsGo fuel cs).drop 7 = d :: r := by rw [hout]; rfl
            have hcs7 : cs.take 7 = 't' :: 't' :: 'p' :: 's' :: ':' :: '/' :: '/' :: [] := by
              rw [← hteq, hout]; rfl
            rcases hdrop d r hdr with ⟨r2, hr2⟩ | ⟨hdb, hum⟩
            · have hcs : 'h' :: cs =
                  'h' :: 't' :: 't' :: 'p' :: 's' :: ':' :: '/' :: '/' :: d :: r2 := by
                conv_lhs => rw [← List.take_append_drop 7 cs]
                rw [hcs7, hr2]
                rfl
              rw [hcs] at hm
              exact hm ((urlMatch_eq_true_iff _).mpr (Or.inr ⟨d, r2, rfl, hd⟩))
            · obtain ⟨r3, hr3⟩ := urlMatch_head hum
              have hcs : 'h' :: cs =
                  'h' :: 't' :: 't' :: 'p' :: 's' :: ':' :: '/' :: '/' :: 'h' :: r3 := by
                conv_lhs => rw [← List.take_append_drop 7 cs]
                rw [hcs7, hr3]
                rfl
              rw [hcs] at hm
              exact hm ((urlMatch_eq_true_iff _).mpr (Or.inr ⟨'h', r3, rfl, by decide⟩))
      · intro k hk
        match k with
        | 0 =>
          refine ⟨rfl, ?_⟩
          intro d r hdr
          left
          have hdr' : c :: redactUrlsGo fuel cs = d :: r := hdr
          injection hdr' with h1 _
          exact ⟨cs, by rw [← h1]; rfl⟩
        | k + 1 =>
          have hk' : ((redactUrlsGo fuel cs).take k).all patChar = true := by
            have hform : (c :: redactUrlsGo fuel cs).take (k + 1) =
                c :: (redactUrlsGo fuel cs).take k := rfl
            rw [hform, List.all_cons, Bool.and_eq_true] at hk
            exact hk.2
          obtain ⟨hteq, hdrop⟩ := ih.2 k hk'
          constructor
          · rw [List.take_succ_cons, List.take_succ_cons, hteq]
          · intro d r hdr
            have hdr' : (redactUrlsGo fuel cs).drop k = d :: r := by
              simpa [List.drop_succ_cons] using hdr
            rcases hdrop d r hdr' with ⟨r2, hr2⟩ | ⟨hdb, hum⟩
            · exact Or.inl ⟨r2, by simpa [List.drop_succ_cons] using hr2⟩
            · exact Or.inr ⟨hdb, by simpa [List.drop_succ_cons] using hum⟩

lemma redactUrlsGo_id :
    ∀ (fuel : Nat) (l : List Char), hasUrl l = false → redactUrlsGo fuel l = l
  | 0, _ => fun _ => rfl
  | _ + 1, [] => fun _ => rfl
  | fuel + 1, c :: cs => fun h => by
    have h' : (urlMatch (c :: cs) || hasUrl cs) = false := h
    have hm : urlMatch (c :: cs) = false := (Bool.or_eq_false_iff.mp h').1
    have hcs : hasUrl cs = false := (Bool.or_eq_false_iff.mp h').2
    simp only [redactUrlsGo]
    split
    · next hcond => rw [hm] at hcond; exact absurd hcond (by simp)
    · rw [redactUrlsGo_id fuel cs hcs]

lemma redactUrls_id (l : List Char) (h : hasUrl l = false) : redactUrls l = l :=
  redactUrlsGo_id _ _ h

lemma redactUrls_norun (l : List Char) (h : hasLongRun l = false) :
    hasLongRun (redactUrls l) = false :=
  (redactUrlsGo_norun l.length l (le_refl _) h).1

lemma redactUrls_nourl (l : List Char) : hasUrl (redactUrls l) = false :=
  (redactUrlsGo_nourl l.length l (le_refl _)).1

/-- **C9.** `sanitize_provider_error` is idempotent: its output has no
20-run of key characters and no remaining `http(s)://\S` match, and the
replacement tokens can neither re-match nor join adjacent text into a new
match, so a second pass is the identity. -/
theorem sanitize_provider_error_idem (l : List Char) :
    sanitize_provider_error (sanitize_provider_error l) =
      sanitize_provider_error l := by
  have h2 : hasLongRun (redactUrls (redactKeys l)) = false :=
    redactUrls_norun _ (redactKeys_norun l)
  have h3 : hasUrl (redactUrls (redactKeys l)) = false := redactUrls_nourl _
  show redactUrls (redactKeys (redactUrls (redactKeys l))) = redactUrls (redactKeys l)
  rw [redactKeys_id _ h2, redactUrls_id _ h3]

/-- **C8 counterexample.** The URL regex `https?://\S+` needs at least one
non-whitespace character after the scheme, so `"see http:// end"` passes
through the sanitizer unchanged and the output still contains `http://` —
the claim "the output contains no http(s):// substring" is false. -/
theorem sanitize_provider_error_url_cex :
    containsSub "http://".toList
      (sanitize_provider_error "see http:// end".toList) = true ∧
    sanitize_provider_error "see http:// end".toList = "see http:// end".toList := by
  exact ⟨by decide, by decide⟩

/-- **C8 (amended).** The sanitizer's output contains no run of 20 or more
characters from `[A-Za-z0-9_-]` and no `http(s)://` substring that is
followed by a non-whitespace character (a bare `http://` before whitespace
or end of string is not matched by `https?://\S+` and may remain); on the
spec's example the key and the URL are both redacted. -/
theorem sanitize_provider_error_spec :
    (∀ l, hasLongRun (sanitize_provider_error l) = false ∧
      hasUrl (sanitize_provider_error l) = false)
    ∧ sanitize_provider_error
        "bad key sk_live_1234567890abcdefghij at https://api.example.com/v1".toList =
      "bad key [REDACTED] at [URL REDACTED]".toList
    ∧ containsSub "sk_live_1234567890abcdefghij".toList
        (sanitize_provider_error
          "bad key sk_live_1234567890abcdefghij at https://api.example.com/v1".toList) =
      false
    ∧ containsSub "https://".toList
        (sanitize_provider_error
          "bad key sk_live_1234567890abcdefghij at https://api.example.com/v1".toList) =
      false := by
  refine ⟨?_, by decide, by decide, by decide⟩
  intro l
  exact ⟨redactUrls_norun _ (redactKeys_norun l), redactUrls_nourl _⟩

/-! ## Job manager (src/backend/src/jobs/manager.py, src/backend/src/jobs/models.py) -/

/-- `GenerationStatus` from `src/backend/src/api/schemas.py`. -/
inductive GenerationStatus where
  | pending
  | in_progress
  | completed
  | failed
  deriving DecidableEq

/-- `ProviderName` from `src/backend/src/api/schemas.py`. -/
inductive ProviderName where
  | google
  | amazon
  | elevenlabs
  | openai
  deriving DecidableEq

/-- `TimingData` from `src/backend/src/api/schemas.py`. -/
structure TimingData where
  timing_type : List Char
  words : Option (List WordTiming)
  sentences : Option (List SentenceTiming)
  deriving DecidableEq

/-- `GenerationJob` from `src/backend/src/jobs/models.py`.  Python floats
(`speed`, `progress`) are modelled as rationals; timestamps as `Nat`. -/
structure GenerationJob where
  id : List Char
  provider : ProviderName
  voice_id : List Char
  text : List Char
  speed : ℚ
  status : GenerationStatus
  progress : ℚ
  total_chunks : Nat
  completed_chunks : Nat
  audio_file_path : Option (List Char)
  timing_data : Option TimingData
  error_message : Option (List Char)
  created_at : Nat
  completed_at : Option Nat
  deriving DecidableEq

/-- `SynthesisResult` from `src/backend/src/providers/base.py` (audio bytes
opaque; `word_timings`/`sentence_timings` use `[]` for absent/empty, which
is exactly Python's truthiness test in the accumulation loop). -/
structure SynthesisResult where
  audio_bytes : List Nat
  duration_ms : Int
  word_timings : List WordTiming
  sentence_timings : List SentenceTiming
  deriving DecidableEq

/-- `StitchResult` from `src/backend/src/processing/audio.py`. -/
structure StitchResult where
  audio_bytes : List Nat
  duration_ms : Nat
  size_bytes : Nat
  deriving DecidableEq

/-- `GenerateRequest` (the fields `create_job` reads). -/
structure GenerateRequest where
  provider : ProviderName
  voice_id : List Char
  text : List Char
  speed : ℚ
  deriving DecidableEq

/-- Observable behaviour of the collaborators of `create_job` /
`process_job`: provider registry and provider calls, chunker, stitcher,
timing normalizer and filesystem.  Every operation may raise
(`Except.error` carries `str(exc)`); the claims quantify over all such
behaviours. -/
structure Env where
  registryGet : Except (List Char) Unit
  is_configured : Bool
  getCaps : Except (List Char) Nat
  chunk : List Char → Nat → Except (List Char) (List TextChunk)
  synth : Nat → List Char → Except (List Char) SynthesisResult
  stitch : List (List Nat) → Except (List Char) StitchResult
  write_file : List Nat → Except (List Char) (List Char)
  silence_between_ms : Int
  merge_word : List TextChunk → List (List WordTiming) → List Int → Int →
    Except (List Char) (List WordTiming)
  merge_sentence : List TextChunk → List (List SentenceTiming) → List Int → Int →
    Except (List Char) (List SentenceTiming)
  estimate : List Char → Nat → Except (List Char) (List SentenceTiming)
  new_id : List Char
  created_at : Nat
  now : Nat

/-- `JobManager.create_job`: validate the provider, chunk the text, insert a
pending job.  Errors propagate to the caller (nothing is caught here). -/
def JobManager.create_job (env : Env) (req : GenerateRequest) :
    Except (List Char) GenerationJob :=
  match env.registryGet with
  | .error e => .error e
  | .ok _ =>
    if !env.is_configured then
      .error "Provider is not configured. Please set the API key in Settings.".toList
    else
      match env.getCaps with
      | .error e => .error e
      | .ok caps =>
        match env.chunk req.text caps with
        | .error e => .error e
        | .ok chunks =>
          .ok { id := env.new_id, provider := req.provider,
                voice_id := req.voice_id, text := req.text, speed := req.speed,
                status := GenerationStatus.pending, progress := 0,
                total_chunks := chunks.length, completed_chunks := 0,
                audio_file_path := none, timing_data := none,
                error_message := none, created_at := env.created_at,
                completed_at := none }

/-- `job.status = GenerationStatus.IN_PROGRESS` assignment. -/
def jInProgress (job : GenerationJob) : GenerationJob :=
  { job with status := GenerationStatus.in_progress }

/-- `job.total_chunks = len(chunks)` assignment. -/
def jWithTotal (j : GenerationJob) (n : Nat) : GenerationJob :=
  { j with total_chunks := n }

/-- `job.completed_chunks += 1; job.progress = completed / total`. -/
def jBump (j : GenerationJob) : GenerationJob :=
  { j with
    completed_chunks := j.completed_chunks + 1
    progress := ((j.completed_chunks + 1 : ℚ)) / (j.total_chunks : ℚ) }

/-- The final assignments of a successful `process_job` run. -/
def jComplete (j : GenerationJob) (path : List Char) (td : TimingData)
    (now : Nat) : GenerationJob :=
  { j with
    audio_file_path := some path
    timing_data := some td
    status := GenerationStatus.completed
    progress := 1
    completed_at := some now }

/-- The `except` handler's assignments: failed status and sanitized
message. -/
def jFail (j : GenerationJob) (e : List Char) : GenerationJob :=
  { j with
    status := GenerationStatus.failed
    error_message := some (sanitize_provider_error e) }

/-- The per-chunk loop of `process_job`: synthesize (via the retry
wrapper, collapsed into `env.synth`), accumulate audio / durations /
timings and the two `has_*` flags, bump `completed_chunks` and `progress`,
publish the update.  Returns the published snapshots and either the
accumulators or the exception together with the job state at that moment
(the handler sees the mutated object). -/
def processChunks (env : Env) :
    List TextChunk → Nat → GenerationJob → List (List Nat) →
    List (List WordTiming) → List (List SentenceTiming) → List Int →
    Bool → Bool →
    List GenerationJob ×
      Except (List Char × GenerationJob)
        (GenerationJob × List (List Nat) × List (List WordTiming) ×
          List (List SentenceTiming) × List Int × Bool × Bool)
  | [], _, j, au, wp, sp, du, hw, hs => ([], .ok (j, au, wp, sp, du, hw, hs))
  | c :: rest, i, j, au, wp, sp, du, hw, hs =>
    match env.synth i c.text with
    | .error e => ([], .error (e, j))
    | .ok res =>
      let j' := jBump j
      let out := processChunks env rest (i + 1) j' (au ++ [res.audio_bytes])
        (wp ++ [res.word_timings]) (sp ++ [res.sentence_timings])
        (du ++ [res.duration_ms]) (hw || !res.word_timings.isEmpty)
        (hs || !res.sentence_timings.isEmpty)
      (j' :: out.1, out.2)

/-- The timing-mode selection of `process_job`, including the inner
`try/except` that falls back to estimation when a merge throws. -/
def selectTiming (env : Env) (job : GenerationJob) (chunks : List TextChunk)
    (wp : List (List WordTiming)) (sp : List (List SentenceTiming))
    (du : List Int) (hw hs : Bool) (dur_ms : Nat) :
    Except (List Char) TimingData :=
  let attempt : Except (List Char) TimingData :=
    if hw then
      match env.merge_word chunks wp du env.silence_between_ms with
      | .ok ws => .ok ⟨"word".toList, some ws, none⟩
      | .error e => .error e
    else if hs then
      match env.merge_sentence chunks sp du env.silence_between_ms with
      | .ok ss => .ok ⟨"sentence".toList, none, some ss⟩
      | .error e => .error e
    else
      match env.estimate job.text dur_ms with
      | .ok est => .ok ⟨"sentence".toList, none, some est⟩
      | .error e => .error e
  match attempt with
  | .ok td => .ok td
  | .error _ =>
    match env.estimate job.text dur_ms with
    | .ok est => .ok ⟨"sentence".toList, none, some est⟩
    | .error e => .error e

/-- The `try` body of `process_job`: the list of published job snapshots,
and either the completed job or the exception paired with the job state the
outer handler sees. -/
def processJobCore (env : Env) (job0 : GenerationJob) :
    List GenerationJob × Except (List Char × GenerationJob) GenerationJob :=
  let j1 := jInProgress job0
  match env.registryGet with
  | .error e => ([j1], .error (e, j1))
  | .ok _ =>
  match env.getCaps with
  | .error e => ([j1], .error (e, j1))
  | .ok caps =>
  match env.chunk job0.text caps with
  | .error e => ([j1], .error (e, j1))
  | .ok chunks =>
    let j2 := jWithTotal j1 chunks.length
    match processChunks env chunks 0 j2 [] [] [] [] false false with
    | (tr, .error (e, jc)) => (j1 :: j2 :: tr, .error (e, jc))
    | (tr, .ok (j3, au, wp, sp, du, hw, hs)) =>
      match env.stitch au with
      | .error e => (j1 :: j2 :: tr, .error (e, j3))
      | .ok stitched =>
      match env.write_file stitched.audio_bytes with
      | .error e => (j1 :: j2 :: tr, .error (e, j3))
      | .ok path =>
      match selectTiming env j3 chunks wp sp du hw hs stitched.duration_ms with
      | .error e => (j1 :: j2 :: tr, .error (e, j3))
      | .ok td =>
        let j4 := jComplete j3 path td env.now
        (j1 :: j2 :: tr ++ [j4], .ok j4)

/-- `JobManager.process_job`: the `try` body plus the outer
`except Exception` handler, which marks the job failed with the sanitized
exception message and publishes it.  Returns all published snapshots in
order; the function is total — no exception escapes. -/
def JobManager.process_job (env : Env) (job0 : GenerationJob) :
    List GenerationJob :=
  match processJobCore env job0 with
  | (tr, .ok _) => tr
  | (tr, .error (e, jc)) => tr ++ [jFail jc e]

/-- On-disk view of one file: `dur = none` models bytes that
`get_duration_ms` cannot decode (it raises). -/
structure FileInfo where
  size : Nat
  dur : Option Nat
  deriving DecidableEq

/-- `AudioMetadataResponse` from `src/backend/src/api/schemas.py`. -/
structure AudioMetadataResponse where
  job_id : List Char
  duration_ms : Nat
  format : List Char
  size_bytes : Nat
  timing : TimingData
  deriving DecidableEq

/-- `JobStore.get` lookup over the in-memory dict (association list). -/
def storeGet : List (List Char × GenerationJob) → List Char → Option GenerationJob
  | [], _ => none
  | (k, j) :: rest, job_id => if k = job_id then some j else storeGet rest job_id

/-- `JobManager.get_audio_metadata` from `src/backend/src/jobs/manager.py`:
`JobNotFoundError` / `JobNotCompletedError` become `Except.error`; `fs` is
the filesystem keyed by path (`none` = `os.path.isfile` false).  When the
file exists, `size_bytes = os.path.getsize(...)`; `duration_ms` falls back
to 0 when decoding raises. -/
def JobManager.get_audio_metadata (fs : List Char → Option FileInfo)
    (jobs : List (List Char × GenerationJob)) (job_id : List Char) :
    Except (List Char) AudioMetadataResponse :=
  match storeGet jobs job_id with
  | none => .error "Job not found".toList
  | some job =>
    if job.status ≠ GenerationStatus.completed then
      .error "Job is not completed".toList
    else
      let sizes : Nat × Nat :=
        match job.audio_file_path with
        | none => (0, 0)
        | some p =>
          match fs p with
          | none => (0, 0)
          | some info =>
            (info.size, match info.dur with
              | some d => d
              | none => 0)
      let timing : TimingData :=
        match job.timing_data with
        | some t => t
        | none => ⟨"sentence".toList, none, some []⟩
      .ok ⟨job_id, sizes.2, "mp3".toList, sizes.1, timing⟩

lemma processJobCore_ok_shape (env : Env) (job0 : GenerationJob) :
    ∀ tr jr, processJobCore env job0 = (tr, .ok jr) →
      tr.getLast? = some jr ∧ jr.status = GenerationStatus.completed := by
  intro tr jr h
  simp only [processJobCore] at h
  repeat' split at h
  all_goals injection h with h1 h2
  all_goals try exact Except.noConfusion h2
  injection h2 with h3
  subst h1
  constructor
  · rw [← h3, List.getLast?_concat]
  · rw [← h3]
    rfl

/-- **C4.** `process_job` never lets an exception escape: it is a total
function on the environment model, and whenever the `try` body raises `e`
(in the provider, chunker, stitcher, normalizer, or filesystem), the last
published job state is the current job marked `failed` with
`error_message = sanitize_provider_error(str(e))`; when the body completes,
the last published state is the completed job. -/
theorem process_job_no_escape (env : Env) (job0 : GenerationJob) :
    (∀ e jc, (processJobCore env job0).2 = .error (e, jc) →
      (JobManager.process_job env job0).getLast? = some (jFail jc e))
    ∧ (∀ jr, (processJobCore env job0).2 = .ok jr →
      (JobManager.process_job env job0).getLast? = some jr ∧
        jr.status = GenerationStatus.completed) := by
  constructor
  · intro e jc hcore
    rcases hc : processJobCore env job0 with ⟨tr, out⟩
    rw [hc] at hcore
    simp only at hcore
    subst hcore
    simp [JobManager.process_job, hc, List.getLast?_concat]
  · intro jr hcore
    rcases hc : processJobCore env job0 with ⟨tr, out⟩
    rw [hc] at hcore
    simp only at hcore
    subst hcore
    have hshape := processJobCore_ok_shape env job0 tr jr hc
    rw [JobManager.process_job, hc]
    exact ⟨hshape.1, hshape.2⟩

/-- A concrete environment whose provider lookup raises. -/
def envC4 : Env :=
  { registryGet := .error "boom".toList
    is_configured := true
    getCaps := .ok 100
    chunk := fun _ _ => .ok []
    synth := fun _ _ => .error "x".toList
    stitch := fun _ => .error "x".toList
    write_file := fun _ => .error "x".toList
    silence_between_ms := 100
    merge_word := fun _ _ _ _ => .error "x".toList
    merge_sentence := fun _ _ _ _ => .error "x".toList
    estimate := fun _ _ => .error "x".toList
    new_id := "id".toList
    created_at := 0
    now := 0 }

/-- A concrete pending job. -/
def jobC4 : GenerationJob :=
  { id := "id".toList, provider := ProviderName.google, voice_id := "v".toList,
    text := "t".toList, speed := 1, status := GenerationStatus.pending,
    progress := 0, total_chunks := 1, completed_chunks := 0,
    audio_file_path := none, timing_data := none, error_message := none,
    created_at := 0, completed_at := none }

/-- Witness for `process_job_no_escape`: with a raising provider lookup the
last published state is the failed job with the sanitized message. -/
theorem process_job_no_escape_witness :
    (JobManager.process_job envC4 jobC4).getLast? =
      some (jFail (jInProgress jobC4) "boom".toList) :=
  (process_job_no_escape envC4 jobC4).1 "boom".toList (jInProgress jobC4) rfl

/-- The allowed lifecycle steps between consecutive published job states
(a repeated status is a re-publication of the same state, not a
transition). -/
def okStep (a b : GenerationJob) : Prop :=
  a.status = b.status
  ∨ (a.status = GenerationStatus.pending ∧ b.status = GenerationStatus.in_progress)
  ∨ (a.status = GenerationStatus.in_progress ∧ b.status = GenerationStatus.completed)
  ∨ (a.status = GenerationStatus.in_progress ∧ b.status = GenerationStatus.failed)

/-- A completed snapshot carries its artifacts and full progress. -/
def completedOk (j : GenerationJob) : Prop :=
  j.status = GenerationStatus.completed →
    j.audio_file_path ≠ none ∧ j.timing_data ≠ none ∧ j.progress = 1

lemma completedOk_of_ne {j : GenerationJob}
    (h : j.status ≠ GenerationStatus.completed) : completedOk j :=
  fun hc => absurd hc h

lemma processChunks_trace (env : Env) :
    ∀ (chunks : List TextChunk) (i : Nat) (j : GenerationJob)
      (au : List (List Nat)) (wp : List (List WordTiming))
      (sp : List (List SentenceTiming)) (du : List Int) (hw hs : Bool),
      j.status = GenerationStatus.in_progress →
      (∀ x ∈ (processChunks env chunks i j au wp sp du hw hs).1,
        x.status = GenerationStatus.in_progress)
      ∧ List.Chain' okStep (j :: (processChunks env chunks i j au wp sp du hw hs).1)
      ∧ (j :: (processChunks env chunks i j au wp sp du hw hs).1).getLast? =
          some (match (processChunks env chunks i j au wp sp du hw hs).2 with
            | .ok (j', _) => j'
            | .error (_, jc) => jc)
  | [], i, j, au, wp, sp, du, hw, hs => fun hst => by
    refine ⟨by simp [processChunks], by simp [processChunks], ?_⟩
    simp [processChunks]
  | c :: rest, i, j, au, wp, sp, du, hw, hs => fun hst => by
    rcases hsy : env.synth i c.text with e | res
    · refine ⟨by simp [processChunks, hsy], by simp [processChunks, hsy], ?_⟩
      simp [processChunks, hsy]
    · have hst' : (jBump j).status = GenerationStatus.in_progress := by
        simpa [jBump] using hst
      have ih := processChunks_trace env rest (i + 1) (jBump j)
        (au ++ [res.audio_bytes]) (wp ++ [res.word_timings])
        (sp ++ [res.sentence_timings]) (du ++ [res.duration_ms])
        (hw || !res.word_timings.isEmpty) (hs || !res.sentence_timings.isEmpty) hst'
      simp only [processChunks, hsy]
      refine ⟨?_, ?_, ?_⟩
      · intro x hx
        rcases List.mem_cons.mp hx with h | h
        · subst h; exact hst'
        · exact ih.1 x h
      · exact List.chain'_cons.mpr ⟨Or.inl (hst.trans hst'.symm), ih.2.1⟩
      · rw [List.getLast?_cons_cons]
        exact ih.2.2

lemma processJobCore_facts (env : Env) (job0 : GenerationJob) :
    (∀ x ∈ (processJobCore env job0).1, completedOk x)
    ∧ (processJobCore env job0).1.head? = some (jInProgress job0)
    ∧ List.Chain' okStep (processJobCore env job0).1
    ∧ (match (processJobCore env job0).2 with
       | .error (_, jc) => (processJobCore env job0).1.getLast? = some jc ∧
           jc.status = GenerationStatus.in_progress
       | .ok _ => True) := by
  have hne : GenerationStatus.in_progress ≠ GenerationStatus.completed := by decide
  rcases hreg : env.registryGet with e | u
  · refine ⟨?_, ?_, ?_, ?_⟩
    · intro x hx
      simp only [processJobCore, hreg, List.mem_singleton] at hx
      subst hx
      exact completedOk_of_ne (by simp [jInProgress])
    · simp [processJobCore, hreg]
    · simp [processJobCore, hreg]
    · simp [processJobCore, hreg, jInProgress]
  · rcases hcaps : env.getCaps with e | caps
    · refine ⟨?_, ?_, ?_, ?_⟩
      · intro x hx
        simp only [processJobCore, hreg, hcaps, List.mem_singleton] at hx
        subst hx
        exact completedOk_of_ne (by simp [jInProgress])
      · simp [processJobCore, hreg, hcaps]
      · simp [processJobCore, hreg, hcaps]
      · simp [processJobCore, hreg, hcaps, jInProgress]
    · rcases hchunk : env.chunk job0.text caps with e | chunks
      · refine ⟨?_, ?_, ?_, ?_⟩
        · intro x hx
          simp only [processJobCore, hreg, hcaps, hchunk, List.mem_singleton] at hx
          subst hx
          exact completedOk_of_ne (by simp [jInProgress])
        · simp [processJobCore, hreg, hcaps, hchunk]
        · simp [processJobCore, hreg, hcaps, hchunk]
        · simp [processJobCore, hreg, hcaps, hchunk, jInProgress]
      · have hj2 : (jWithTotal (jInProgress job0) chunks.length).status =
            GenerationStatus.in_progress := by simp [jWithTotal, jInProgress]
        have hlp := processChunks_trace env chunks 0
          (jWithTotal (jInProgress job0) chunks.length) [] [] [] [] false false hj2
        rcases hloop : processChunks env chunks 0
            (jWithTotal (jInProgress job0) chunks.length) [] [] [] [] false false
          with ⟨tr, out⟩
        rw [hloop] at hlp
        simp only at hlp
        obtain ⟨hall, hch, hlast⟩ := hlp
        have hmemstatus : ∀ jx, (jWithTotal (jInProgress job0) chunks.length :: tr).getLast? =
            some jx → jx.status = GenerationStatus.in_progress := by
          intro jx hjx
          have hm := List.mem_of_mem_getLast? (by rw [hjx]; rfl)
          rcases List.mem_cons.mp hm with h | h
          · subst h; exact hj2
          · exact hall jx h
        have htraceOk : ∀ x ∈ jInProgress job0 ::
            jWithTotal (jInProgress job0) chunks.length :: tr, completedOk x := by
          intro x hx
          rcases List.mem_cons.mp hx with h | h
          · subst h
            exact completedOk_of_ne (by simp [jInProgress])
          · rcases List.mem_cons.mp h with h2 | h2
            · subst h2
              exact completedOk_of_ne (by rw [hj2]; exact hne)
            · exact completedOk_of_ne (by rw [hall x h2]; exact hne)
        have hchainOk : List.Chain' okStep (jInProgress job0 ::
            jWithTotal (jInProgress job0) chunks.length :: tr) :=
          List.chain'_cons.mpr ⟨Or.inl (by simp [jInProgress, jWithTotal]), hch⟩
        rcases out with ⟨e, jc⟩ | ⟨j3, au, wp, sp, du, hw, hs⟩
        · refine ⟨?_, ?_, ?_, ?_⟩ <;>
            simp only [processJobCore, hreg, hcaps, hchunk, hloop]
          · exact htraceOk
          · rfl
          · exact hchainOk
          · refine ⟨?_, hmemstatus jc (by simpa using hlast)⟩
            rw [List.getLast?_cons_cons]
            simpa using hlast
        · have hj3st : j3.status = GenerationStatus.in_progress :=
            hmemstatus j3 (by simpa using hlast)
          have hj3last : (jWithTotal (jInProgress job0) chunks.length :: tr).getLast? =
              some j3 := by simpa using hlast
          rcases hstitch : env.stitch au with e | stitched
          · refine ⟨?_, ?_, ?_, ?_⟩ <;>
              simp only [processJobCore, hreg, hcaps, hchunk, hloop, hstitch]
            · exact htraceOk
            · rfl
            · exact hchainOk
            · exact ⟨by rw [List.getLast?_cons_cons]; exact hj3last, hj3st⟩
          · rcases hwrite : env.write_file stitched.audio_bytes with e | path
            · refine ⟨?_, ?_, ?_, ?_⟩ <;>
                simp only [processJobCore, hreg, hcaps, hchunk, hloop, hstitch, hwrite]
              · exact htraceOk
              · rfl
              · exact hchainOk
              · exact ⟨by rw [List.getLast?_cons_cons]; exact hj3last, hj3st⟩
            · rcases htiming : selectTiming env j3 chunks wp sp du hw hs
                  stitched.duration_ms with e | td
              · refine ⟨?_, ?_, ?_, ?_⟩ <;>
                  simp only [processJobCore, hreg, hcaps, hchunk, hloop, hstitch,
                    hwrite, htiming]
                · exact htraceOk
                · rfl
                · exact hchainOk
                · exact ⟨by rw [List.getLast?_cons_cons]; exact hj3last, hj3st⟩
              · refine ⟨?_, ?_, ?_, ?_⟩ <;>
                  simp only [processJobCore, hreg, hcaps, hchunk, hloop, hstitch,
                    hwrite, htiming]
                · intro x hx
                  rcases List.mem_append.mp hx with h | h
                  · exact htraceOk x h
                  · have hxe := List.mem_singleton.mp h
                    subst hxe
                    intro _
                    refine ⟨by simp [jComplete], by simp [jComplete], by simp [jComplete]⟩
                · rfl
                · apply List.chain'_append.mpr
                  refine ⟨hchainOk, by simp, ?_⟩
                  intro x hx y hy
                  have hxj3 : j3 = x := by
                    rw [List.getLast?_cons_cons] at hx
                    rw [hj3last] at hx
                    simpa using hx
                  have hyj4 : jComplete j3 path td env.now = y := by
                    simpa using hy
                  subst hxj3
                  subst hyj4
                  exact Or.inr (Or.inr (Or.inl ⟨hj3st, by simp [jComplete]⟩))

lemma create_job_ok_status (env : Env) (req : GenerateRequest) (j0 : GenerationJob)
    (h : JobManager.create_job env req = .ok j0) :
    j0.status = GenerationStatus.pending := by
  simp only [JobManager.create_job] at h
  repeat' split at h
  all_goals try exact Except.noConfusion h
  injection h with h1
  rw [← h1]

/-- **C7.** Over the job states published by `create_job` and
`process_job`, the status only ever steps along
`pending → in_progress`, `in_progress → completed`,
`in_progress → failed` (adjacent snapshots otherwise keep their status),
and every snapshot with status `completed` has non-null `audio_file_path`
and `timing_data` and `progress = 1.0`. -/
theorem job_lifecycle (env : Env) (req : GenerateRequest) (j0 : GenerationJob)
    (hcreate : JobManager.create_job env req = .ok j0) :
    List.Chain' okStep (j0 :: JobManager.process_job env j0)
    ∧ ∀ j ∈ j0 :: JobManager.process_job env j0, completedOk j := by
  have hpend := create_job_ok_status env req j0 hcreate
  obtain ⟨hall, hhead, hchain, hmatch⟩ := processJobCore_facts env j0
  rcases hc : processJobCore env j0 with ⟨tr, out⟩
  rw [hc] at hall hhead hchain hmatch
  simp only at hall hhead hchain hmatch
  rcases tr with _ | ⟨t0, tr'⟩
  · simp at hhead
  · have ht0' : t0 = jInProgress j0 := by simpa using hhead
    have hstep0 : okStep j0 t0 :=
      Or.inr (Or.inl ⟨hpend, by rw [ht0']; simp [jInProgress]⟩)
    rcases out with ⟨e, jc⟩ | jr
    · obtain ⟨hlastl, hjcst⟩ := hmatch
      have hpj : JobManager.process_job env j0 = (t0 :: tr') ++ [jFail jc e] := by
        rw [JobManager.process_job, hc]
      constructor
      · rw [hpj]
        show List.Chain' okStep ((j0 :: t0 :: tr') ++ [jFail jc e])
        apply List.chain'_append.mpr
        refine ⟨List.chain'_cons.mpr ⟨hstep0, hchain⟩, by simp, ?_⟩
        intro x hx y hy
        rw [List.getLast?_cons_cons, hlastl] at hx
        have hxe : jc = x := by simpa using hx
        have hye : jFail jc e = y := by simpa using hy
        subst hxe
        subst hye
        exact Or.inr (Or.inr (Or.inr ⟨hjcst, by simp [jFail]⟩))
      · intro j hj
        rw [hpj] at hj
        rcases List.mem_cons.mp hj with h | h
        · subst h
          exact completedOk_of_ne (by rw [hpend]; decide)
        · rcases List.mem_append.mp h with h2 | h2
          · exact hall j h2
          · have hje := List.mem_singleton.mp h2
            subst hje
            exact completedOk_of_ne (by simp [jFail])
    · have hpj : JobManager.process_job env j0 = t0 :: tr' := by
        rw [JobManager.process_job, hc]
      constructor
      · rw [hpj]
        exact List.chain'_cons.mpr ⟨hstep0, hchain⟩
      · intro j hj
        rw [hpj] at hj
        rcases List.mem_cons.mp hj with h | h
        · subst h
          exact completedOk_of_ne (by rw [hpend]; decide)
        · exact hall j h

/-- A concrete one-chunk environment whose pipeline succeeds. -/
def envC7 : Env :=
  { registryGet := .ok ()
    is_configured := true
    getCaps := .ok 100
    chunk := fun _ _ => .ok [⟨"t".toList, 0, 1, 0, 1⟩]
    synth := fun _ _ => .ok ⟨[1], 100, [], []⟩
    stitch := fun _ => .ok ⟨[1], 100, 1⟩
    write_file := fun _ => .ok "/a.mp3".toList
    silence_between_ms := 100
    merge_word := fun _ _ _ _ => .error "x".toList
    merge_sentence := fun _ _ _ _ => .error "x".toList
    estimate := fun _ _ => .ok []
    new_id := "id7".toList
    created_at := 3
    now := 7 }

/-- The request of the concrete C7 scenario. -/
def reqC7 : GenerateRequest :=
  { provider := ProviderName.google, voice_id := "v".toList, text := "t".toList,
    speed := 1 }

/-- The job `create_job envC7 reqC7` inserts. -/
def jobC7 : GenerationJob :=
  { id := "id7".toList, provider := ProviderName.google, voice_id := "v".toList,
    text := "t".toList, speed := 1, status := GenerationStatus.pending,
    progress := 0, total_chunks := 1, completed_chunks := 0,
    audio_file_path := none, timing_data := none, error_message := none,
    created_at := 3, completed_at := none }

/-- Witness for `job_lifecycle` on the concrete successful scenario. -/
theorem job_lifecycle_witness :
    List.Chain' okStep (jobC7 :: JobManager.process_job envC7 jobC7)
    ∧ ∀ j ∈ jobC7 :: JobManager.process_job envC7 jobC7, completedOk j :=
  job_lifecycle envC7 reqC7 jobC7 rfl

/-- A concrete completed job pointing at file `"p"`. -/
def jobC10 : GenerationJob :=
  { id := "j".toList, provider := ProviderName.google, voice_id := "v".toList,
    text := "t".toList, speed := 1, status := GenerationStatus.completed,
    progress := 1, total_chunks := 1, completed_chunks := 1,
    audio_file_path := some "p".toList, timing_data := none,
    error_message := none, created_at := 0, completed_at := some 0 }

/-- **C10 counterexample.** A completed job whose file exists (5 bytes) but
cannot be decoded: `get_audio_metadata` returns `size_bytes = 5` (the
actual `os.path.getsize` value), not 0 — only `duration_ms` falls back to
0.  The claim that `size_bytes == 0` in this case is false. -/
theorem get_audio_metadata_cex :
    JobManager.get_audio_metadata
        (fun p => if p = "p".toList then some ⟨5, none⟩ else none)
        [("j".toList, jobC10)] "j".toList =
      .ok ⟨"j".toList, 0, "mp3".toList, 5, ⟨"sentence".toList, none, some []⟩⟩
    ∧ (5 : Nat) ≠ 0 := ⟨rfl, by decide⟩

/-- **C10 (amended).** For every completed job in the store,
`get_audio_metadata` never raises: the timing is the stored timing data (or
an empty sentence record when null); a null path or missing file yields
`size_bytes = 0` and `duration_ms = 0`; an existing but undecodable file
yields `duration_ms = 0` with `size_bytes` equal to the file's actual
size. -/
theorem get_audio_metadata_spec (fs : List Char → Option FileInfo)
    (jobs : List (List Char × GenerationJob)) (job_id : List Char)
    (job : GenerationJob) (hget : storeGet jobs job_id = some job)
    (hst : job.status = GenerationStatus.completed) :
    ∃ r, JobManager.get_audio_metadata fs jobs job_id = .ok r ∧
      r.timing = (match job.timing_data with
        | some t => t
        | none => ⟨"sentence".toList, none, some []⟩)
      ∧ (job.audio_file_path = none → r.size_bytes = 0 ∧ r.duration_ms = 0)
      ∧ (∀ p, job.audio_file_path = some p → fs p = none →
          r.size_bytes = 0 ∧ r.duration_ms = 0)
      ∧ (∀ p info, job.audio_file_path = some p → fs p = some info →
          info.dur = none → r.size_bytes = info.size ∧ r.duration_ms = 0) := by
  have hne : ¬ (job.status ≠ GenerationStatus.completed) := by simp [hst]
  rcases hap : job.audio_file_path with _ | p
  · refine ⟨⟨job_id, 0, "mp3".toList, 0, match job.timing_data with
      | some t => t
      | none => ⟨"sentence".toList, none, some []⟩⟩, ?_, rfl, ?_, ?_, ?_⟩
    · simp [JobManager.get_audio_metadata, hget, hne, hap]
    · exact fun _ => ⟨rfl, rfl⟩
    · intro p hp
      exact Option.noConfusion hp
    · intro p info hp _
      exact Option.noConfusion hp
  · rcases hfs : fs p with _ | info
    · refine ⟨⟨job_id, 0, "mp3".toList, 0, match job.timing_data with
        | some t => t
        | none => ⟨"sentence".toList, none, some []⟩⟩, ?_, rfl, ?_, ?_, ?_⟩
      · simp [JobManager.get_audio_metadata, hget, hne, hap, hfs]
      · intro hnone
        exact Option.noConfusion hnone
      · exact fun _ _ _ => ⟨rfl, rfl⟩
      · intro p' info hp' hfs'
        injection hp' with hpp
        rw [← hpp, hfs] at hfs'
        exact Option.noConfusion hfs'
    · rcases hdur : info.dur with _ | d
      · refine ⟨⟨job_id, 0, "mp3".toList, info.size, match job.timing_data with
          | some t => t
          | none => ⟨"sentence".toList, none, some []⟩⟩, ?_, rfl, ?_, ?_, ?_⟩
        · simp [JobManager.get_audio_metadata, hget, hne, hap, hfs, hdur]
        · intro hnone
          exact Option.noConfusion hnone
        · intro p' hp' hfs'
          injection hp' with hpp
          rw [← hpp, hfs] at hfs'
          exact Option.noConfusion hfs'
        · intro p' info' hp' hfs' hdur'
          injection hp' with hpp
          rw [← hpp, hfs] at hfs'
          injection hfs' with hii
          rw [← hii]
          exact ⟨rfl, rfl⟩
      · refine ⟨⟨job_id, d, "mp3".toList, info.size, match job.timing_data with
          | some t => t
          | none => ⟨"sentence".toList, none, some []⟩⟩, ?_, rfl, ?_, ?_, ?_⟩
        · simp [JobManager.get_audio_metadata, hget, hne, hap, hfs, hdur]
        · intro hnone
          exact Option.noConfusion hnone
        · intro p' hp' hfs'
          injection hp' with hpp
          rw [← hpp, hfs] at hfs'
          exact Option.noConfusion hfs'
        · intro p' info' hp' hfs' hdur'
          injection hp' with hpp
          rw [← hpp, hfs] at hfs'
          injection hfs' with hii
          rw [← hii, hdur] at hdur'
          exact Option.noConfusion hdur'

/-- Witness for `get_audio_metadata_spec`: the same completed job with an
absent file yields a response with `size_bytes = 0`, `duration_ms = 0`. -/
theorem get_audio_metadata_spec_witness :
    storeGet [("j".toList, jobC10)] "j".toList = some jobC10
    ∧ jobC10.status = GenerationStatus.completed
    ∧ ∃ r, JobManager.get_audio_metadata (fun _ => none)
        [("j".toList, jobC10)] "j".toList = .ok r ∧
      r.timing = (match jobC10.timing_data with
        | some t => t
        | none => ⟨"sentence".toList, none, some []⟩)
      ∧ (jobC10.audio_file_path = none → r.size_bytes = 0 ∧ r.duration_ms = 0)
      ∧ (∀ p, jobC10.audio_file_path = some p →
          (none : Option FileInfo) = none →
          r.size_bytes = 0 ∧ r.duration_ms = 0)
      ∧ (∀ p info, jobC10.audio_file_path = some p →
          (none : Option FileInfo) = some info →
          info.dur = none → r.size_bytes = info.size ∧ r.duration_ms = 0) :=
  ⟨rfl, rfl, get_audio_metadata_spec (fun _ => none) [("j".toList, jobC10)]
    "j".toList jobC10 rfl rfl⟩
